import Mathlib

/-!
# Verification of the osu_collection_factory reference-resolution pipeline

Shallow embedding of the core of the `osu_collection_factory` repository:

* `osu_link_parser.py` — token extraction and classification (three Python
  regexes, modelled by a bounded-backtracking matcher with Python `re`
  semantics: leftmost match, ordered alternation, greedy bounded repetition,
  lookahead/lookbehind, `^` without `re.MULTILINE`),
* `api_sentry.py` — `get_beatmaps_from_map_ids` batching loop,
* `osu_link_parser.py` — `set_ids_to_map_ids` / `map_ids_to_md5s`,
* `md5_conversion.py` — `convert_md5s_to_db` binary writer.

Python strings are modelled as `List Char`; Python `bytes` as `List Nat`
(each element < 256); Python sets of strings as insertion-ordered
duplicate-free lists (Python's `set` iteration order is unspecified; the
claims proved here do not depend on it).
-/

namespace OsuCollectionFactory

/-! ## A bounded-backtracking regex matcher

Every quantifier appearing in the three source regexes is bounded
(`{0,4}`, `{1,11}`, `{1,8}`, `{1,7}`, `{1,5}`, `?`), so a matcher that
returns the finite list of candidate match lengths, in the order Python's
backtracking engine tries them, is an exact model.

A matcher receives the reversed text to the left of the current position
(needed for lookbehind and for the `^` anchor) and the remaining text, and
returns all candidate match lengths in priority order; the head of the
list is the match Python's engine produces at this position. -/

def M : Type := List Char → List Char → List Nat

/-- The empty regex: matches zero characters. -/
def mEps : M := fun _ _ => [0]

/-- Single-character class given by a predicate (`\d`, `\w`, `.`, …). -/
def mPred (p : Char → Bool) : M := fun _ rest =>
  match rest with
  | [] => []
  | c :: _ => if p c then [1] else []

/-- Literal single character. -/
def mChar (c : Char) : M := mPred (fun d => d == c)

/-- Literal string. -/
def mStr (s : List Char) : M := fun _ rest =>
  if s.isPrefixOf rest then [s.length] else []

/-- Concatenation: all ways to split, in backtracking priority order. -/
def mSeq (a b : M) : M := fun prev rest =>
  (a prev rest).flatMap fun n =>
    (b ((rest.take n).reverse ++ prev) (rest.drop n)).map fun m => n + m

/-- Ordered alternation `x|y`: left branch tried first. -/
def mAlt (a b : M) : M := fun prev rest => a prev rest ++ b prev rest

/-- Greedy option `x?`: presence tried before absence. -/
def mOpt (a : M) : M := mAlt a mEps

/-- Greedy bounded repetition `x{0,k}`: more repetitions tried first. -/
def mRepUpTo (a : M) : Nat → M
  | 0 => mEps
  | k + 1 => mAlt (mSeq a (mRepUpTo a k)) mEps

/-- Exactly `k` repetitions of `x`. -/
def mRepExact (a : M) : Nat → M
  | 0 => mEps
  | k + 1 => mSeq a (mRepExact a k)

/-- Greedy bounded repetition `x{lo,hi}` (`hi ≥ lo`). -/
def mRep (a : M) (lo hi : Nat) : M := mSeq (mRepExact a lo) (mRepUpTo a (hi - lo))

/-- Negative lookahead `(?!x)`: zero-width, succeeds iff `x` has no match here. -/
def mLookNeg (a : M) : M := fun prev rest =>
  if (a prev rest).isEmpty then [0] else []

/-- Positive lookbehind `(?<=x)` for a fixed-width pattern `x` of width `k`
(Python requires fixed width): zero-width, succeeds iff `x` matches the `k`
characters ending at the current position. -/
def mLookBehindPos (k : Nat) (a : M) : M := fun prev _ =>
  if k ≤ prev.length && (a [] ((prev.take k).reverse)).contains k then [0] else []

/-- Negative lookbehind `(?<!x)` for a fixed-width pattern `x` of width `k`. -/
def mLookBehindNeg (k : Nat) (a : M) : M := fun prev _ =>
  if k ≤ prev.length && (a [] ((prev.take k).reverse)).contains k then [] else [0]

/-- The `^` anchor. The source compiles its patterns without `re.MULTILINE`,
so `^` matches only at the very start of the input string. -/
def mStart : M := fun prev _ => if prev.isEmpty then [0] else []

/-- Python `\d` (the inputs at issue are ASCII, where `\d` is `[0-9]`). -/
def isDigitChar (c : Char) : Bool := c.isDigit

/-- Python `\w` (on ASCII: `[A-Za-z0-9_]`). -/
def isWordChar (c : Char) : Bool := c.isAlphanum || c == '_'

/-- Python `.` without `re.DOTALL`: any character except a newline. -/
def isDotChar (c : Char) : Bool := !(c == '\n')

abbrev mDigit : M := mPred isDigitChar
abbrev mWord : M := mPred isWordChar
abbrev mDot : M := mPred isDotChar

/-! ## `re.search` and `re.finditer` -/

/-- Scan left to right for the leftmost position with a match; return the
position together with the length Python's engine picks there (the head of
the priority-ordered candidate list). -/
def reSearchAux (a : M) : List Char → List Char → Option (Nat × Nat)
  | prev, [] =>
    match a prev [] with
    | n :: _ => some (prev.length, n)
    | [] => none
  | prev, c :: rest1 =>
    match a prev (c :: rest1) with
    | n :: _ => some (prev.length, n)
    | [] => reSearchAux a (c :: prev) rest1

/-- Model of Python `re.search(pattern, s)`, returning start position and
length of the match (`group(0)` is the corresponding substring). -/
def reSearch (a : M) (s : List Char) : Option (Nat × Nat) := reSearchAux a [] s

/-- Model of `re.finditer`: successive non-overlapping leftmost matches,
each search resuming at the end of the previous match (after a zero-width
match Python advances by one character).  Returns the matched substrings
(`group(0)` of each match object). -/
def finditerAux (a : M) (prev rest : List Char) : List (List Char) :=
  match a prev rest with
  | [] =>
    match rest with
    | [] => []
    | c :: rest1 => finditerAux a (c :: prev) rest1
  | 0 :: _ =>
    [] ::
      (match rest with
       | [] => []
       | c :: rest1 => finditerAux a (c :: prev) rest1)
  | (n + 1) :: _ =>
    rest.take (n + 1) ::
      (match hr : rest with
       | [] => []
       | c :: rest1 =>
         finditerAux a ((rest.take (n + 1)).reverse ++ prev) (rest.drop (n + 1)))
termination_by rest.length
decreasing_by
  · simp
  · simp
  · simp [hr]; omega

def finditer (a : M) (s : List Char) : List (List Char) := finditerAux a [] s

/-! ## The three patterns of `osu_link_parser.py`

Transcribed subexpression by subexpression from the source regexes.
Capture-group parentheses carry no semantics here because the source only
ever reads `group(0)` (the whole match). -/

/-- Source: `((?!(?<=ets/)\d{1,7}(#|%23))((?<=s/)\d{1,7}))`
(`self.set_id_pattern`, `osu_link_parser.py` lines 29–31). -/
def set_id_pattern : M :=
  mSeq
    (mLookNeg
      (mSeq (mLookBehindPos 4 (mStr ['e', 't', 's', '/']))
        (mSeq (mRep mDigit 1 7) (mAlt (mChar '#') (mStr ['%', '2', '3'])))))
    (mSeq (mLookBehindPos 2 (mStr ['s', '/'])) (mRep mDigit 1 7))

/-- Source: `(((?<!ets/)(?<!/s/)(?<=\w/)\d{1,8}|^\d{1,8}))`
(`self.map_id_pattern`, `osu_link_parser.py` lines 34–36). -/
def map_id_pattern : M :=
  mAlt
    (mSeq (mLookBehindNeg 4 (mStr ['e', 't', 's', '/']))
      (mSeq (mLookBehindNeg 3 (mStr ['/', 's', '/']))
        (mSeq (mLookBehindPos 2 (mSeq mWord (mChar '/')))
          (mRep mDigit 1 8))))
    (mSeq mStart (mRep mDigit 1 8))

/-- The fragment-or-query part of the link pattern:
`((#|%23)\w{1,5}/\d{1,8}|\w{1,7}\?b=\d{1,8}(&m=\d)?)`. -/
def osu_link_tail : M :=
  mAlt
    (mSeq (mAlt (mChar '#') (mStr ['%', '2', '3']))
      (mSeq (mRep mWord 1 5) (mSeq (mChar '/') (mRep mDigit 1 8))))
    (mSeq (mRep mWord 1 7)
      (mSeq (mStr ['?', 'b', '='])
        (mSeq (mRep mDigit 1 8) (mOpt (mSeq (mStr ['&', 'm', '=']) mDigit)))))

/-- The part of the link pattern after `osu\.ppy\.sh/(?!u)\w{1,11}/`:
`((\d{1,8})?((#|%23)\w{1,5}/\d{1,8}|\w{1,7}\?b=\d{1,8}(&m=\d)?)|\d{1,8})`. -/
def osu_link_inner : M :=
  mAlt (mSeq (mOpt (mRep mDigit 1 8)) osu_link_tail) (mRep mDigit 1 8)

/-- Source:
`(((http.{0,4})?osu\.ppy\.sh/(?!u)\w{1,11}/((\d{1,8})?((#|%23)\w{1,5}/\d{1,8}|\w{1,7}\?b=\d{1,8}(&m=\d)?)|\d{1,8}))|(^\d{1,8}))`
(`self.osu_link_pattern`, `osu_link_parser.py` lines 39–42). -/
def osu_link_pattern : M :=
  mAlt
    (mSeq (mOpt (mSeq (mStr ['h', 't', 't', 'p']) (mRepUpTo mDot 4)))
      (mSeq (mStr ['o', 's', 'u', '.', 'p', 'p', 'y', '.', 's', 'h', '/'])
        (mSeq (mLookNeg (mChar 'u'))
          (mSeq (mRep mWord 1 11) (mSeq (mChar '/') osu_link_inner)))))
    (mSeq mStart (mRep mDigit 1 8))

/-! ## `parse_ids_from_plaintext_file`

The loop over `osu_link_pattern.finditer(f_lines)` (`osu_link_parser.py`
lines 87–104): each matched token is first searched with `set_id_pattern`
(a hit goes to `self.set_ids` and the loop continues), otherwise with
`map_id_pattern` (a hit goes to `self.map_ids`), otherwise the token is
dropped with a warning.  The Python sets of strings are modelled as
insertion-ordered duplicate-free lists. -/

/-- `s.add(x)` on a Python set, as a duplicate-free list. -/
def addUnique (l : List (List Char)) (x : List Char) : List (List Char) :=
  if x ∈ l then l else l ++ [x]

/-- The substring `group(0)` denoted by a `reSearch` result. -/
def matchSub (s : List Char) (pn : Nat × Nat) : List Char :=
  (s.drop pn.1).take pn.2

/-- Classification of one token found by the broad scan. -/
def classifyLink (st : List (List Char) × List (List Char)) (link : List Char) :
    List (List Char) × List (List Char) :=
  match reSearch set_id_pattern link with
  | some pn => (addUnique st.1 (matchSub link pn), st.2)
  | none =>
    match reSearch map_id_pattern link with
    | some pn => (st.1, addUnique st.2 (matchSub link pn))
    | none => st

/-- Model of `parse_ids_from_plaintext_file` applied to a file with the given
contents, starting from empty `set_ids` / `map_ids`; returns
`(set_ids, map_ids)`. -/
def parse_ids_from_plaintext_file (file : List Char) :
    List (List Char) × List (List Char) :=
  (finditer osu_link_pattern file).foldl classifyLink ([], [])

/-! ## `md5_conversion.convert_md5s_to_db`

The writer's byte output is modelled as a `List Nat` (each element a byte).
`str.encode()` is UTF-8; `(k).to_bytes(n, "little")` is little-endian.
Note `len(name).to_bytes(1, "little")` raises `OverflowError` in Python when
`len(name) > 255`; the theorems below restrict to names of length ≤ 255,
where the `% 256` in the model is the identity. -/

/-- UTF-8 encoding of one character (`str.encode()` per code point). -/
def utf8EncodeChar (c : Char) : List Nat :=
  let n := c.toNat
  if n < 0x80 then [n]
  else if n < 0x800 then
    [0xC0 + n / 64, 0x80 + n % 64]
  else if n < 0x10000 then
    [0xE0 + n / 4096, 0x80 + n / 64 % 64, 0x80 + n % 64]
  else
    [0xF0 + n / 262144, 0x80 + n / 4096 % 64, 0x80 + n / 64 % 64, 0x80 + n % 64]

/-- Python `s.encode()` (UTF-8 bytes of a string). -/
def pyEncode (s : List Char) : List Nat := s.flatMap utf8EncodeChar

/-- Python `k.to_bytes(w, "little")` (for `k < 256 ^ w`). -/
def toBytesLE (w k : Nat) : List Nat :=
  (List.range w).map fun i => k / 256 ^ i % 256

/-- The byte sequence written by `convert_md5s_to_db` (`md5_conversion.py`
lines 28–37): version bytes, collection count, `0x0b` spacer, `len(name)`
as one byte, `name.encode()`, `len(md5s)` as four bytes, then for each md5
the two spacer bytes `0x0b 0x20` (`b"\x0b "`) and `md5.encode()`. -/
def convert_md5s_to_db (name : List Char) (md5s : List (List Char)) : List Nat :=
  [0x00, 0x00, 0x00, 0x00]
    ++ toBytesLE 4 1
    ++ [0x0b]
    ++ toBytesLE 1 name.length
    ++ pyEncode name
    ++ toBytesLE 4 md5s.length
    ++ md5s.flatMap fun md5 => [0x0b, 0x20] ++ pyEncode md5

/-- The byte layout exactly as the claim words it: int32 LE `0`, int32 LE
`1`, byte `0x0B`, one byte holding the name's length, the name's bytes
(one byte per ASCII character), int32 LE checksum count, then per checksum
`0x0B 0x20` followed by that checksum's 32 bytes. -/
def dbClaimLayout (name : List Char) (md5s : List (List Char)) : List Nat :=
  toBytesLE 4 0
    ++ toBytesLE 4 1
    ++ [0x0b]
    ++ [name.length]
    ++ name.map Char.toNat
    ++ toBytesLE 4 md5s.length
    ++ md5s.flatMap fun md5 => [0x0b, 0x20] ++ md5.map Char.toNat

/-! ## `api_sentry.get_beatmaps_from_map_ids`

The batching `while` loop (`api_sentry.py` lines 297–316):

    maps = []
    ids_left = len(map_ids)
    iteration = 0
    while ids_left > 0:
        payload = {"ids[]": map_ids[iteration*50 : iteration*50+50]}
        maps.append(make_api_request(..., payload=payload, ...))
        ids_left -= 50
        iteration += 1
    return maps

Python's `ids_left` may go negative before the loop exits; with truncated
`Nat` subtraction the guard `ids_left > 0` behaves identically. -/

/-- The successive id-slices passed as remote-call payloads by the loop. -/
def batchLoop (ids : List Nat) (ids_left iteration : Nat) : List (List Nat) :=
  if 0 < ids_left then
    ((ids.drop (iteration * 50)).take 50)
      :: batchLoop ids (ids_left - 50) (iteration + 1)
  else []
termination_by ids_left

/-- The sequence of remote calls (payload id-lists) that
`get_beatmaps_from_map_ids(map_ids)` issues, in order. -/
def api_call_payloads (ids : List Nat) : List (List Nat) :=
  batchLoop ids ids.length 0

/-- Spec-side description: partition into consecutive chunks of at most 50. -/
def chunks50 (ids : List Nat) : List (List Nat) :=
  if ids.isEmpty then [] else ids.take 50 :: chunks50 (ids.drop 50)
termination_by ids.length
decreasing_by cases ids with
  | nil => simp at *
  | cons c t => simp; omega

/-- `get_beatmaps_from_map_ids` with the remote service abstracted as an
oracle `api` mapping one payload of ids to the per-item detail records of
one response (or a failure).  Faithful to the source, each response is
`maps.append(...)`-ed as ONE element, so the function returns a list with
one element per batch, each element itself being the batch's list of
details. -/
def get_beatmaps_loop {ε δ : Type} (api : List Nat → Except ε (List δ))
    (ids : List Nat) (ids_left iteration : Nat) (maps : List (List δ)) :
    Except ε (List (List δ)) :=
  if 0 < ids_left then
    match api ((ids.drop (iteration * 50)).take 50) with
    | Except.error e => Except.error e
    | Except.ok batch =>
      get_beatmaps_loop api ids (ids_left - 50) (iteration + 1) (maps ++ [batch])
  else Except.ok maps
termination_by ids_left

def get_beatmaps_from_map_ids {ε δ : Type} (api : List Nat → Except ε (List δ))
    (ids : List Nat) : Except ε (List (List δ)) :=
  get_beatmaps_loop api ids ids.length 0 []

/-! ## `osu_link_parser.set_ids_to_map_ids` and `map_ids_to_md5s` -/

/-- Errors that can escape the resolution steps: a remote failure, or the
`TypeError` Python raises in `map_ids_to_md5s` when it subscripts a batch
list with the string key `"file_md5"`. -/
inductive ResolveErr (ε : Type) : Type
  | api (e : ε)
  | typeError
deriving DecidableEq

/-- One remote item summary returned when listing a set's members:
`beatmap.get("beatmap_id")`, present or not. -/
abbrev Summary : Type := Option Nat

/-- Model of `set_ids_to_map_ids` (`osu_link_parser.py` lines 108–133):
for each set id, call `get_beatmaps_from_set_id`; on an exception, `continue`
when `ignore_invalid_set_ids` holds and re-raise otherwise; on success add
every present `beatmap_id` to `map_ids`. -/
def set_ids_to_map_ids {σ ε : Type} (ignore_invalid_set_ids : Bool)
    (api : σ → Except ε (List Summary)) (set_ids : List σ)
    (map_ids : List Nat) : Except ε (List Nat) :=
  match set_ids with
  | [] => Except.ok map_ids
  | s :: rest =>
    match api s with
    | Except.error e =>
      if ignore_invalid_set_ids then
        set_ids_to_map_ids ignore_invalid_set_ids api rest map_ids
      else Except.error e
    | Except.ok beatmaps =>
      set_ids_to_map_ids ignore_invalid_set_ids api rest
        ((beatmaps.filterMap id).foldl (fun acc i => if i ∈ acc then acc else acc ++ [i]) map_ids)

/-- One remote item detail record: its `file_md5` field. -/
structure Detail : Type where
  file_md5 : List Char
deriving DecidableEq

/-- Model of `map_ids_to_md5s` (`osu_link_parser.py` lines 135–139):

    beatmaps = self.api.get_beatmaps_from_map_ids(list(self.map_ids))
    for beatmap in beatmaps:
        self.md5s.add(beatmap["file_md5"])

There is no `try`/`except` here, so a remote failure propagates no matter
what the settings say; the `ignore_invalid_map_ids` argument is accepted
(it exists in `util.Settings`) but — exactly as in the source — never read.
When the remote calls succeed, `beatmaps` is a list of per-batch LISTS, so
each loop iteration evaluates `beatmap["file_md5"]` with `beatmap` a list,
which raises `TypeError` ("list indices must be integers"); hence any
nonempty result aborts with `ResolveErr.typeError`. -/
def map_ids_to_md5s {ε : Type} (ignore_invalid_map_ids : Bool)
    (api : List Nat → Except ε (List Detail)) (map_ids : List Nat) :
    Except (ResolveErr ε) (List (List Char)) :=
  match get_beatmaps_from_map_ids api map_ids with
  | Except.error e => Except.error (ResolveErr.api e)
  | Except.ok beatmaps =>
    match beatmaps with
    | [] => Except.ok []
    | _ :: _ => Except.error ResolveErr.typeError

/-! ## Supporting lemmas: writer -/

theorem utf8EncodeChar_ascii (c : Char) (h : c.toNat < 128) :
    utf8EncodeChar c = [c.toNat] := by
  simp [utf8EncodeChar]
  omega

theorem pyEncode_ascii (s : List Char) (h : ∀ c ∈ s, c.toNat < 128) :
    pyEncode s = s.map Char.toNat := by
  induction s with
  | nil => rfl
  | cons c t ih =>
    simp only [pyEncode, List.flatMap_cons, List.map_cons]
    rw [utf8EncodeChar_ascii c (h c (by simp))]
    simp only [List.cons_append, List.nil_append, List.cons.injEq, true_and]
    exact ih fun d hd => h d (by simp [hd])

theorem pyEncode_length_ascii (s : List Char) (h : ∀ c ∈ s, c.toNat < 128) :
    (pyEncode s).length = s.length := by
  rw [pyEncode_ascii s h]; simp

/-! ## Supporting lemmas: batching -/

theorem batchLoop_unfold (ids : List Nat) (ids_left iteration : Nat) :
    batchLoop ids ids_left iteration =
      if 0 < ids_left then
        ((ids.drop (iteration * 50)).take 50)
          :: batchLoop ids (ids_left - 50) (iteration + 1)
      else [] := by
  rw [batchLoop]

theorem get_beatmaps_loop_unfold {ε δ : Type} (api : List Nat → Except ε (List δ))
    (ids : List Nat) (ids_left iteration : Nat) (maps : List (List δ)) :
    get_beatmaps_loop api ids ids_left iteration maps =
      if 0 < ids_left then
        match api ((ids.drop (iteration * 50)).take 50) with
        | Except.error e => Except.error e
        | Except.ok batch =>
          get_beatmaps_loop api ids (ids_left - 50) (iteration + 1) (maps ++ [batch])
      else Except.ok maps := by
  rw [get_beatmaps_loop]

theorem chunks50_unfold (ids : List Nat) :
    chunks50 ids =
      if ids.isEmpty then [] else ids.take 50 :: chunks50 (ids.drop 50) := by
  rw [chunks50]

theorem batchLoop_eq_chunks50 :
    ∀ (ids_left : Nat) (ids : List Nat) (iteration : Nat),
      ids_left = (ids.drop (iteration * 50)).length →
      batchLoop ids ids_left iteration = chunks50 (ids.drop (iteration * 50)) := by
  intro n
  induction n using Nat.strong_induction_on with
  | _ n ih =>
    intro ids i hn
    rw [batchLoop_unfold, chunks50_unfold]
    by_cases h : 0 < n
    · rw [if_pos h, if_neg (by simp only [List.isEmpty_iff, ← List.length_eq_zero, ← hn]; omega)]
      refine congrArg _ ?_
      have hdrop : (ids.drop (i * 50)).drop 50 = ids.drop ((i + 1) * 50) := by
        rw [List.drop_drop]; ring_nf
      rw [hdrop]
      refine ih (n - 50) (by omega) ids (i + 1) ?_
      rw [← hdrop, List.length_drop, ← hn]
    · rw [if_neg h, if_pos]
      rw [List.isEmpty_iff, ← List.length_eq_zero]
      omega

theorem api_call_payloads_eq_chunks50 (ids : List Nat) :
    api_call_payloads ids = chunks50 ids := by
  have := batchLoop_eq_chunks50 ids.length ids 0 (by simp)
  simpa [api_call_payloads] using this

theorem chunks50_flatten (ids : List Nat) : (chunks50 ids).flatten = ids := by
  induction ids using chunks50.induct with
  | case1 ids h => rw [chunks50_unfold, if_pos h]; simp [List.isEmpty_iff.mp h]
  | case2 ids h ih =>
    rw [chunks50_unfold, if_neg h, List.flatten_cons, ih, List.take_append_drop]

theorem chunks50_mem (ids : List Nat) :
    ∀ b ∈ chunks50 ids, b ≠ [] ∧ b.length ≤ 50 := by
  induction ids using chunks50.induct with
  | case1 ids h => rw [chunks50_unfold, if_pos h]; simp
  | case2 ids h ih =>
    intro b hb
    rw [chunks50_unfold, if_neg h] at hb
    rcases List.mem_cons.mp hb with hb | hb
    · subst hb
      constructor
      · simp only [List.isEmpty_iff] at h
        intro hc
        exact h (by cases ids <;> simp_all)
      · simp
    · exact ih b hb

/-! ## C2 -/

/-- C2: `get_beatmaps_from_map_ids` partitions its input ids into
consecutive batches of at most 50, one remote call per batch, in input
order: an empty input causes zero calls, exactly 50 ids cause one call
carrying all 50, and 51 ids cause two calls of sizes 50 and 1. -/
theorem c2_batch_partition (ids : List Nat) :
    api_call_payloads ids = chunks50 ids
    ∧ (ids = [] → api_call_payloads ids = [])
    ∧ (ids.length = 50 → api_call_payloads ids = [ids])
    ∧ (ids.length = 51 →
        api_call_payloads ids = [ids.take 50, ids.drop 50]
        ∧ (ids.take 50).length = 50 ∧ (ids.drop 50).length = 1)
    ∧ (api_call_payloads ids).flatten = ids
    ∧ ∀ b ∈ api_call_payloads ids, b ≠ [] ∧ b.length ≤ 50 := by
  have hc := api_call_payloads_eq_chunks50 ids
  refine ⟨hc, ?_, ?_, ?_, ?_, ?_⟩
  · intro h; subst h; rw [hc, chunks50_unfold]; rfl
  · intro h50
    rw [hc, chunks50_unfold,
      if_neg (by simp only [List.isEmpty_iff, ← List.length_eq_zero]; omega)]
    rw [chunks50_unfold,
      if_pos (by simp only [List.isEmpty_iff, ← List.length_eq_zero, List.length_drop]; omega)]
    rw [List.take_of_length_le (by omega)]
  · intro h51
    rw [hc, chunks50_unfold,
      if_neg (by simp only [List.isEmpty_iff, ← List.length_eq_zero]; omega)]
    rw [chunks50_unfold,
      if_neg (by simp only [List.isEmpty_iff, ← List.length_eq_zero, List.length_drop]; omega)]
    rw [chunks50_unfold,
      if_pos (by simp only [List.isEmpty_iff, ← List.length_eq_zero, List.length_drop,
        List.drop_drop]; omega)]
    refine ⟨?_, by simp; omega, by simp [List.length_drop]; omega⟩
    rw [List.take_of_length_le (show (ids.drop 50).length ≤ 50 by
      simp [List.length_drop]; omega)]
  · rw [hc]; exact chunks50_flatten ids
  · rw [hc]; exact chunks50_mem ids

/-- Witness for C2 at concrete inputs of sizes 0, 50 and 51. -/
theorem c2_batch_partition_witness :
    api_call_payloads [] = []
    ∧ api_call_payloads (List.range 50) = [List.range 50]
    ∧ api_call_payloads (List.range 51)
        = [(List.range 51).take 50, (List.range 51).drop 50] := by
  refine ⟨(c2_batch_partition []).2.1 rfl,
          (c2_batch_partition (List.range 50)).2.2.1 (by simp),
          ((c2_batch_partition (List.range 51)).2.2.2.1 (by simp)).1⟩

/-! ## C1 -/

/-- C1: for an ASCII collection name of at most 255 characters and
32-character (hex, hence ASCII) checksum strings, `convert_md5s_to_db`
writes exactly: int32 LE `0`, int32 LE `1`, the byte `0x0B`, one byte with
the name's length, the name's bytes with no terminator, int32 LE checksum
count, then per checksum the two bytes `0x0B 0x20` followed by that
checksum's 32 bytes — and nothing else. -/
theorem c1_writer_layout (name : List Char) (md5s : List (List Char))
    (hname : ∀ c ∈ name, c.toNat < 128) (hlen : name.length ≤ 255)
    (hmd5 : ∀ m ∈ md5s, m.length = 32 ∧ ∀ c ∈ m, c.toNat < 128) :
    convert_md5s_to_db name md5s = dbClaimLayout name md5s
    ∧ ∀ m ∈ md5s, (m.map Char.toNat).length = 32 := by
  constructor
  · unfold convert_md5s_to_db dbClaimLayout
    have h0 : toBytesLE 4 0 = [0x00, 0x00, 0x00, 0x00] := rfl
    have h1 : toBytesLE 1 name.length = [name.length] := by
      show [name.length / 256 ^ 0 % 256] = [name.length]
      simp [Nat.mod_eq_of_lt (show name.length < 256 by omega)]
    rw [h0, h1, pyEncode_ascii name hname]
    have hf : ∀ l : List (List Char), (∀ m ∈ l, ∀ c ∈ m, c.toNat < 128) →
        l.flatMap (fun md5 => [0x0b, 0x20] ++ pyEncode md5)
          = l.flatMap (fun md5 => [0x0b, 0x20] ++ md5.map Char.toNat) := by
      intro l hl
      induction l with
      | nil => rfl
      | cons m t ih =>
        simp only [List.flatMap_cons]
        rw [pyEncode_ascii m (hl m (by simp)), ih fun x hx c hc => hl x (by simp [hx]) c hc]
    rw [hf md5s fun m hm => (hmd5 m hm).2]
  · intro m hm
    rw [List.length_map]
    exact (hmd5 m hm).1

/-- Witness for C1: the concrete collection of the spec's round-trip
property (`name="coll"`, two 32-byte checksums). -/
theorem c1_writer_layout_witness :
    convert_md5s_to_db "coll".toList
        [List.replicate 32 'a', List.replicate 32 'b']
      = dbClaimLayout "coll".toList
        [List.replicate 32 'a', List.replicate 32 'b']
    ∧ ∀ m ∈ [List.replicate 32 'a', List.replicate 32 'b'],
        (m.map Char.toNat).length = 32 :=
  c1_writer_layout "coll".toList [List.replicate 32 'a', List.replicate 32 'b']
    (by decide) (by decide) (by decide)

/-! ## C9 -/

/-- C9 is refuted: the name-length byte holds `len(name)` (the character
count), not the UTF-8 byte length.  For the one-character name `"é"`
(U+00E9) the writer emits length byte `1` followed by the TWO bytes
`0xC3 0xA9` of the name's encoding, so a conformant reader consuming
`name_length` bytes reads only half the name. -/
theorem c9_counterexample :
    convert_md5s_to_db [Char.ofNat 233] []
      = [0x00, 0x00, 0x00, 0x00, 0x01, 0x00, 0x00, 0x00, 0x0b,
          1, 0xC3, 0xA9, 0x00, 0x00, 0x00, 0x00]
    ∧ (pyEncode [Char.ofNat 233]).length = 2
    ∧ (1 : Nat) ≠ 2 := by
  refine ⟨by rfl, by rfl, by decide⟩

/-- C9 amended: the name-length byte written by the writer equals the
number of characters of the name; this coincides with the byte length of
the encoded name exactly in the ASCII case. -/
theorem c9_amended (name : List Char) (md5s : List (List Char))
    (hlen : name.length ≤ 255) :
    convert_md5s_to_db name md5s
      = [0x00, 0x00, 0x00, 0x00, 0x01, 0x00, 0x00, 0x00, 0x0b]
          ++ [name.length] ++ pyEncode name ++ toBytesLE 4 md5s.length
          ++ md5s.flatMap (fun md5 => [0x0b, 0x20] ++ pyEncode md5)
    ∧ ((∀ c ∈ name, c.toNat < 128) → (pyEncode name).length = name.length) := by
  constructor
  · unfold convert_md5s_to_db
    have h1 : toBytesLE 1 name.length = [name.length] := by
      show [name.length / 256 ^ 0 % 256] = [name.length]
      simp [Nat.mod_eq_of_lt (show name.length < 256 by omega)]
    rw [h1]
    rfl
  · exact pyEncode_length_ascii name

/-- Witness for C9's amended claim at the name `"coll"`. -/
theorem c9_amended_witness :
    convert_md5s_to_db "coll".toList []
      = [0x00, 0x00, 0x00, 0x00, 0x01, 0x00, 0x00, 0x00, 0x0b]
          ++ ["coll".toList.length] ++ pyEncode "coll".toList
          ++ toBytesLE 4 ([] : List (List Char)).length
          ++ ([] : List (List Char)).flatMap (fun md5 => [0x0b, 0x20] ++ pyEncode md5)
    ∧ ((∀ c ∈ "coll".toList, c.toNat < 128) →
        (pyEncode "coll".toList).length = "coll".toList.length) :=
  c9_amended "coll".toList [] (by decide)

/-! ## C3 -/

/-- A remote oracle answering every requested id with one detail record. -/
def perIdApi : List Nat → Except Unit (List Detail) :=
  fun batch => Except.ok (batch.map fun _ => Detail.mk ['a'])

/-- C3 marks a code bug: `get_beatmaps_from_map_ids` `append`s each batch
response as a single element, so it returns one element PER BATCH (a list
of per-batch lists), not one element per item detail.  For 51 ids whose
resolution yields 51 detail records the result has 2 elements, not 51;
and its consumer `map_ids_to_md5s` — which iterates the result and
subscripts each element with `"file_md5"`, as the claim describes — hits a
`TypeError` on the very first element even for a single id. -/
theorem c3_code_bug :
    get_beatmaps_from_map_ids perIdApi (List.range 51)
      = Except.ok [List.replicate 50 (Detail.mk ['a']), [Detail.mk ['a']]]
    ∧ [List.replicate 50 (Detail.mk ['a']), [Detail.mk ['a']]].length = 2
    ∧ ([List.replicate 50 (Detail.mk ['a']), [Detail.mk ['a']]].flatten).length = 51
    ∧ map_ids_to_md5s true perIdApi [7] = Except.error ResolveErr.typeError := by
  have h1 : get_beatmaps_from_map_ids perIdApi (List.range 51)
      = Except.ok [List.replicate 50 (Detail.mk ['a']), [Detail.mk ['a']]] := by
    show get_beatmaps_loop perIdApi (List.range 51) (List.range 51).length 0 []
      = Except.ok [List.replicate 50 (Detail.mk ['a']), [Detail.mk ['a']]]
    rw [get_beatmaps_loop_unfold, if_pos (by simp)]
    show get_beatmaps_loop perIdApi (List.range 51) ((List.range 51).length - 50) (0 + 1)
      ([] ++ [List.replicate 50 (Detail.mk ['a'])]) = _
    rw [get_beatmaps_loop_unfold, if_pos (by simp)]
    show get_beatmaps_loop perIdApi (List.range 51) ((List.range 51).length - 50 - 50) (0 + 1 + 1)
      ([] ++ [List.replicate 50 (Detail.mk ['a'])] ++ [[Detail.mk ['a']]]) = _
    rw [get_beatmaps_loop_unfold, if_neg (by simp)]
    rfl
  have h7 : get_beatmaps_from_map_ids perIdApi [7] = Except.ok [[Detail.mk ['a']]] := by
    show get_beatmaps_loop perIdApi [7] [7].length 0 []
      = Except.ok [[Detail.mk ['a']]]
    rw [get_beatmaps_loop_unfold, if_pos (by simp)]
    show get_beatmaps_loop perIdApi [7] ([7].length - 50) (0 + 1)
      ([] ++ [[Detail.mk ['a']]]) = _
    rw [get_beatmaps_loop_unfold, if_neg (by simp)]
    rfl
  refine ⟨h1, by decide, by decide, ?_⟩
  rw [map_ids_to_md5s, h7]

/-! ## C8 -/

/-- A remote oracle that fails on every call. -/
def failApi : List Nat → Except Unit (List Detail) :=
  fun _ => Except.error ()

/-- C8 marks a code bug: `map_ids_to_md5s` wraps its remote call in no
`try`/`except` and never consults `Settings.ignore_invalid_map_ids`, so a
remote failure during checksum resolution aborts the run even when the
ignore-invalid-map-ids policy is set — unlike set resolution, where the
corresponding flag masks the failure. -/
theorem c8_code_bug :
    map_ids_to_md5s true failApi [1] = Except.error (ResolveErr.api ())
    ∧ map_ids_to_md5s false failApi [1] = Except.error (ResolveErr.api ()) := by
  have h : get_beatmaps_from_map_ids failApi [1] = Except.error () := by
    show get_beatmaps_loop failApi [1] [1].length 0 [] = Except.error ()
    rw [get_beatmaps_loop_unfold, if_pos (by simp)]
    rfl
  constructor <;> (rw [map_ids_to_md5s, h])

/-! ## C7 -/

/-- C7: during set resolution, when the remote call for one set reference
`s` fails: with the ignore-invalid-set-IDs policy set, `s` contributes no
item references and the remaining set references resolve exactly as if `s`
were absent; with the policy unset (and the earlier calls succeeding, so
that `s`'s failure is the one hit), the error propagates out of
`set_ids_to_map_ids`. -/
theorem c7_ignore_policy {σ ε : Type} (api : σ → Except ε (List Summary))
    (s : σ) (e : ε) (hs : api s = Except.error e)
    (l1 l2 : List σ) (m : List Nat) :
    (set_ids_to_map_ids true api (l1 ++ s :: l2) m
      = set_ids_to_map_ids true api (l1 ++ l2) m)
    ∧ ((∀ x ∈ l1, ∃ v, api x = Except.ok v) →
        set_ids_to_map_ids false api (l1 ++ s :: l2) m = Except.error e) := by
  induction l1 generalizing m with
  | nil =>
    refine ⟨?_, ?_⟩
    · simp only [List.nil_append, set_ids_to_map_ids, hs, if_pos]
    · intro _
      simp only [List.nil_append, set_ids_to_map_ids, hs]
      rfl
  | cons a l1 ih =>
    refine ⟨?_, ?_⟩
    · simp only [List.cons_append, set_ids_to_map_ids]
      cases api a with
      | error e1 => simpa using (ih m).1
      | ok v => exact (ih _).1
    · intro hok
      obtain ⟨v, hv⟩ := hok a (by simp)
      simp only [List.cons_append, set_ids_to_map_ids, hv]
      exact (ih _).2 fun x hx => hok x (by simp [hx])

/-- A concrete oracle failing exactly on set id 5. -/
def setApi5 : Nat → Except Unit (List Summary) :=
  fun x => if x = 5 then Except.error () else Except.ok [some x, none]

/-- Witness for C7: set id 5 fails between set ids 1 and 9. -/
theorem c7_ignore_policy_witness :
    (set_ids_to_map_ids true setApi5 ([1] ++ 5 :: [9]) []
      = set_ids_to_map_ids true setApi5 ([1] ++ [9]) [])
    ∧ ((∀ x ∈ [1], ∃ v, setApi5 x = Except.ok v) →
        set_ids_to_map_ids false setApi5 ([1] ++ 5 :: [9]) [] = Except.error ()) :=
  c7_ignore_policy setApi5 5 () rfl [1] [9] []

/-! ## Matcher lemmas: repetition over character classes -/

/-- The list `[n, n-1, …, 0]`: the greedy priority order of candidate
repetition counts. -/
def countdown : Nat → List Nat
  | 0 => [0]
  | n + 1 => (n + 1) :: countdown n

/-- Length of the maximal run of `p`-characters at the head of a string. -/
def leadingCount (p : Char → Bool) : List Char → Nat
  | [] => 0
  | c :: t => if p c then leadingCount p t + 1 else 0

theorem mem_countdown (n : Nat) : ∀ x, x ∈ countdown n ↔ x ≤ n := by
  induction n with
  | zero => intro x; simp [countdown]
  | succ n ih => intro x; simp [countdown, ih]; omega

theorem countdown_succ (m : Nat) :
    countdown (m + 1) = (countdown m).map (fun x => 1 + x) ++ [0] := by
  induction m with
  | zero => rfl
  | succ m ih =>
    show (m + 2) :: countdown (m + 1) = ((m + 1) :: countdown m).map (fun x => 1 + x) ++ [0]
    rw [List.map_cons, List.cons_append, show 1 + (m + 1) = m + 2 from by omega, ← ih]

theorem mRepUpTo_pred (p : Char → Bool) (k : Nat) :
    ∀ (prev t : List Char),
      mRepUpTo (mPred p) k prev t = countdown (min k (leadingCount p t)) := by
  induction k with
  | zero => intro prev t; simp [mRepUpTo, mEps, Nat.zero_min, countdown]
  | succ k ih =>
    intro prev t
    cases t with
    | nil =>
      show mAlt (mSeq (mPred p) (mRepUpTo (mPred p) k)) mEps prev [] = _
      simp [mAlt, mSeq, mPred, mEps, leadingCount, countdown]
    | cons c t =>
      show mAlt (mSeq (mPred p) (mRepUpTo (mPred p) k)) mEps prev (c :: t) = _
      by_cases hc : p c
      · have h1 : mPred p prev (c :: t) = [1] := by simp [mPred, hc]
        simp only [mAlt, mSeq, mEps, h1, List.flatMap_cons, List.flatMap_nil,
          List.append_nil, List.take, List.drop, List.reverse_cons, List.reverse_nil,
          List.nil_append, List.singleton_append]
        rw [ih]
        have : leadingCount p (c :: t) = leadingCount p t + 1 := by
          simp [leadingCount, hc]
        rw [this, show min (k + 1) (leadingCount p t + 1) = min k (leadingCount p t) + 1 by omega,
          countdown_succ]
      · have h1 : mPred p prev (c :: t) = [] := by simp [mPred, hc]
        have h2 : leadingCount p (c :: t) = 0 := by simp [leadingCount, hc]
        simp [mAlt, mSeq, mEps, h1, h2, countdown]

theorem mRep_one_pred_nomatch (p : Char → Bool) (h : Nat) (prev t : List Char)
    (ht : leadingCount p t = 0) : mRep (mPred p) 1 h prev t = [] := by
  cases t with
  | nil => simp [mRep, mRepExact, mSeq, mPred, mEps]
  | cons c t =>
    have hc : p c = false := by
      by_contra hc
      simp only [Bool.not_eq_false] at hc
      simp [leadingCount, hc] at ht
    simp [mRep, mRepExact, mSeq, mPred, mEps, hc]

theorem mRep_one_pred_match (p : Char → Bool) (h : Nat) (prev : List Char)
    (c : Char) (t : List Char) (hc : p c = true) :
    mRep (mPred p) 1 h prev (c :: t)
      = (countdown (min (h - 1) (leadingCount p t))).map (fun m => 1 + m) := by
  have h1 : mPred p prev (c :: t) = [1] := by simp [mPred, hc]
  show mSeq (mSeq (mPred p) (mRepExact (mPred p) 0)) (mRepUpTo (mPred p) (h - 1)) prev (c :: t) = _
  simp only [mSeq, mRepExact, mEps, h1, List.flatMap_cons, List.flatMap_nil,
    List.append_nil, List.map_cons, List.map_nil]
  simp only [List.take, List.drop, List.reverse_cons, List.reverse_nil, List.nil_append,
    List.singleton_append]
  rw [mRepUpTo_pred]

/-- The head of the greedy match list of `(mPred p){1,h}` on a string
starting with a `p`-run of length `L ≥ 1` is `min h L`. -/
theorem mRep_one_pred_head (p : Char → Bool) (h : Nat) (hh : 1 ≤ h) (prev : List Char)
    (c : Char) (t : List Char) (hc : p c = true) :
    ∃ l, mRep (mPred p) 1 h prev (c :: t)
      = min h (leadingCount p (c :: t)) :: l := by
  rw [mRep_one_pred_match p h prev c t hc]
  have h2 : leadingCount p (c :: t) = leadingCount p t + 1 := by simp [leadingCount, hc]
  cases hcd : countdown (min (h - 1) (leadingCount p t)) with
  | nil => exact absurd hcd (by cases hm : min (h - 1) (leadingCount p t) <;> simp [countdown, hm])
  | cons x l =>
    have hx : x = min (h - 1) (leadingCount p t) := by
      cases hm : min (h - 1) (leadingCount p t) with
      | zero => rw [hm] at hcd; simp [countdown] at hcd; omega
      | succ n => rw [hm] at hcd; simp [countdown] at hcd; omega
    refine ⟨l.map fun m => 1 + m, ?_⟩
    rw [List.map_cons, hx, h2]
    congr 1
    omega

/-! ## Matcher lemmas: sequencing, literals, lookaround, anchors -/

theorem mSeq_def (a b : M) (prev rest : List Char) :
    mSeq a b prev rest
      = (a prev rest).flatMap fun n =>
          (b ((rest.take n).reverse ++ prev) (rest.drop n)).map fun m => n + m := rfl

theorem mAlt_def (a b : M) (prev rest : List Char) :
    mAlt a b prev rest = a prev rest ++ b prev rest := rfl

theorem mSeq_nil_left {a : M} (b : M) {prev rest : List Char}
    (h : a prev rest = []) : mSeq a b prev rest = [] := by
  simp [mSeq, h]

theorem mSeq_zw_pass {a : M} (b : M) {prev rest : List Char}
    (h : a prev rest = [0]) : mSeq a b prev rest = b prev rest := by
  simp [mSeq, h]

theorem mSeq_zw_cases {a : M} (b : M) {prev rest : List Char}
    (hz : a prev rest = [] ∨ a prev rest = [0])
    (hb : b prev rest = []) : mSeq a b prev rest = [] := by
  rcases hz with h | h
  · exact mSeq_nil_left b h
  · rw [mSeq_zw_pass b h, hb]

theorem mSeq_eq_nil_of_forall {a : M} (b : M) {prev rest : List Char}
    (h : ∀ n ∈ a prev rest, b ((rest.take n).reverse ++ prev) (rest.drop n) = []) :
    mSeq a b prev rest = [] := by
  rw [mSeq_def]
  rw [List.flatMap_eq_nil_iff]
  intro n hn
  rw [h n hn, List.map_nil]

theorem mSeq_alt_left (x y b : M) (prev rest : List Char) :
    mSeq (mAlt x y) b prev rest = mSeq x b prev rest ++ mSeq y b prev rest := by
  simp [mSeq, mAlt, List.flatMap_append]

theorem mSeq_eps_left (b : M) (prev rest : List Char) :
    mSeq mEps b prev rest = b prev rest := by
  simp [mSeq, mEps]

theorem mSeq_assoc (a b c : M) (prev rest : List Char) :
    mSeq (mSeq a b) c prev rest = mSeq a (mSeq b c) prev rest := by
  simp only [mSeq, List.flatMap_assoc, List.flatMap_map, List.map_flatMap, List.map_map]
  refine List.flatMap_congr fun n _ => ?_
  refine List.flatMap_congr fun m _ => ?_
  have hdrop : rest.drop (n + m) = (rest.drop n).drop m := by
    rw [List.drop_drop]
  have htake : (rest.take (n + m)).reverse ++ prev
      = ((rest.drop n).take m).reverse ++ ((rest.take n).reverse ++ prev) := by
    rw [List.take_add, List.reverse_append, List.append_assoc]
  rw [hdrop, htake]
  refine List.map_congr_left fun k _ => ?_
  simp only [Function.comp_apply]
  omega

theorem mStr_nil (prev rest : List Char) : mStr [] prev rest = [0] := by
  simp [mStr, List.isPrefixOf]

theorem mStr_fail_nil (c : Char) (s : List Char) (prev : List Char) :
    mStr (c :: s) prev [] = [] := by
  simp [mStr, List.isPrefixOf]

theorem mStr_fail_head (c : Char) (s : List Char) {d : Char} {rest : List Char}
    (h : ¬ d = c) (prev : List Char) :
    mStr (c :: s) prev (d :: rest) = [] := by
  simp [mStr, List.isPrefixOf, Ne.symm h]

theorem mSeq_mStr_starts (s : List Char) (b : M) (prev rest : List Char)
    (h : s.isPrefixOf rest = true) :
    mSeq (mStr s) b prev rest
      = (b (s.reverse ++ prev) (rest.drop s.length)).map fun m => s.length + m := by
  have hp : s <+: rest := List.isPrefixOf_iff_prefix.mp h
  have htake : rest.take s.length = s := (List.prefix_iff_eq_take.mp hp).symm
  simp [mSeq, mStr, h, htake]

theorem mSeq_mChar_cons (c : Char) (b : M) (prev : List Char) (d : Char)
    (rest : List Char) :
    mSeq (mChar c) b prev (d :: rest)
      = if d = c then (b (d :: prev) rest).map (fun m => 1 + m) else [] := by
  by_cases h : d = c
  · simp [mSeq, mChar, mPred, h]
  · simp [mSeq, mChar, mPred, h]

theorem mChar_fail_nil (c : Char) (prev : List Char) : mChar c prev [] = [] := rfl

theorem mLookNeg_pass {a : M} {prev rest : List Char} (h : a prev rest = []) :
    mLookNeg a prev rest = [0] := by
  simp [mLookNeg, h]

theorem mLookNeg_fail {a : M} {prev rest : List Char} (h : a prev rest ≠ []) :
    mLookNeg a prev rest = [] := by
  simp only [mLookNeg, List.isEmpty_iff, if_neg h]

theorem mSeq_lookNeg_left (a b : M) {prev rest : List Char}
    (hb : b prev rest = []) : mSeq (mLookNeg a) b prev rest = [] := by
  refine mSeq_zw_cases b ?_ hb
  by_cases h : a prev rest = []
  · exact Or.inr (mLookNeg_pass h)
  · exact Or.inl (mLookNeg_fail h)

theorem mLookBehindPos_mStr (s : List Char) (prev rest : List Char) :
    mLookBehindPos s.length (mStr s) prev rest
      = if prev.take s.length = s.reverse then [0] else [] := by
  unfold mLookBehindPos mStr
  by_cases hc : prev.take s.length = s.reverse
  · rw [if_pos hc]
    have hlen : s.length ≤ prev.length := by
      have := congrArg List.length hc
      simp at this
      omega
    have hpre : (prev.take s.length).reverse = s := by rw [hc, List.reverse_reverse]
    rw [hpre]
    simp [hlen, List.isPrefixOf_iff_prefix]
  · rw [if_neg hc]
    by_cases hlen : s.length ≤ prev.length
    · have hlt : (prev.take s.length).length = s.length := by
        simp; omega
      have hnp : s.isPrefixOf ((prev.take s.length).reverse) = false := by
        by_contra hb
        simp only [Bool.not_eq_false] at hb
        have hp := List.isPrefixOf_iff_prefix.mp hb
        have heq : s = (prev.take s.length).reverse :=
          List.IsPrefix.eq_of_length hp (by simp [hlt])
        refine hc ?_
        conv_rhs => rw [heq]
        rw [List.reverse_reverse]
      simp [hnp]
    · simp [hlen]

theorem mLookBehindNeg_mStr (s : List Char) (prev rest : List Char) :
    mLookBehindNeg s.length (mStr s) prev rest
      = if prev.take s.length = s.reverse then [] else [0] := by
  unfold mLookBehindNeg
  have h := mLookBehindPos_mStr s prev rest
  unfold mLookBehindPos at h
  by_cases hc : prev.take s.length = s.reverse
  · rw [if_pos hc] at h ⊢
    rcases ite_eq_iff.mp h with ⟨hcond, _⟩ | ⟨_, hfalse⟩
    · rw [if_pos hcond]
    · exact absurd hfalse (by simp)
  · rw [if_neg hc] at h ⊢
    rcases ite_eq_iff.mp h with ⟨_, hfalse⟩ | ⟨hcond, _⟩
    · exact absurd hfalse.symm (by simp)
    · rw [if_neg hcond]

theorem mStart_nil (rest : List Char) : mStart [] rest = [0] := rfl

theorem mStart_cons (c : Char) (prev rest : List Char) :
    mStart (c :: prev) rest = [] := rfl

theorem mSeq_mStart_cons (b : M) (c : Char) (prev rest : List Char) :
    mSeq mStart b (c :: prev) rest = [] :=
  mSeq_nil_left b (mStart_cons c prev rest)

theorem mSeq_mStart_nil (b : M) (rest : List Char) :
    mSeq mStart b [] rest = b [] rest :=
  mSeq_zw_pass b (mStart_nil rest)

/-! ## Character-class facts and leading-run arithmetic -/

theorem ne_of_pred_mismatch {p : Char → Bool} {c d : Char}
    (hc : p c = true) (hd : p d = false) : ¬ c = d := by
  intro he
  rw [he, hd] at hc
  exact Bool.noConfusion hc

theorem isWordChar_of_isDigitChar {c : Char} (h : isDigitChar c = true) :
    isWordChar c = true := by
  simp only [isWordChar, Char.isAlphanum, Bool.or_eq_true]
  simp only [isDigitChar] at h
  exact Or.inl (Or.inr h)

theorem leadingCount_nil (p : Char → Bool) : leadingCount p [] = 0 := rfl

theorem leadingCount_cons_pos (p : Char → Bool) {c : Char} (t : List Char)
    (h : p c = true) : leadingCount p (c :: t) = leadingCount p t + 1 := by
  simp [leadingCount, h]

theorem leadingCount_cons_neg (p : Char → Bool) {c : Char} (t : List Char)
    (h : p c = false) : leadingCount p (c :: t) = 0 := by
  simp [leadingCount, h]

theorem leadingCount_append_all (p : Char → Bool) (d r : List Char)
    (hd : ∀ c ∈ d, p c = true) :
    leadingCount p (d ++ r) = d.length + leadingCount p r := by
  induction d with
  | nil => simp
  | cons c t ih =>
    rw [List.cons_append, leadingCount_cons_pos p _ (hd c (by simp)),
      ih fun x hx => hd x (by simp [hx])]
    simp
    omega

theorem leadingCount_all (p : Char → Bool) (d : List Char)
    (hd : ∀ c ∈ d, p c = true) : leadingCount p d = d.length := by
  have := leadingCount_append_all p d [] hd
  simpa using this

theorem leadingCount_head_neg (p : Char → Bool) {r : List Char}
    (h : r = [] ∨ ∃ c t, r = c :: t ∧ p c = false) : leadingCount p r = 0 := by
  rcases h with h | ⟨c, t, hct, hc⟩
  · rw [h]; rfl
  · rw [hct]; exact leadingCount_cons_neg p t hc

theorem leadingCount_append_stop (p : Char → Bool) (d r : List Char)
    (hd : ∀ c ∈ d, p c = true)
    (hr : r = [] ∨ ∃ c t, r = c :: t ∧ p c = false) :
    leadingCount p (d ++ r) = d.length := by
  rw [leadingCount_append_all p d r hd, leadingCount_head_neg p hr]
  omega

/-! ## Stepping lemmas for `reSearchAux` and `finditerAux` -/

theorem reSearchAux_step {a : M} {prev : List Char} {c : Char} {rest : List Char}
    (h : a prev (c :: rest) = []) :
    reSearchAux a prev (c :: rest) = reSearchAux a (c :: prev) rest := by
  rw [reSearchAux, h]

theorem reSearchAux_none {a : M} {prev : List Char} (h : a prev [] = []) :
    reSearchAux a prev [] = none := by
  rw [reSearchAux, h]

theorem reSearchAux_hit {a : M} {prev rest : List Char} {n : Nat} {l : List Nat}
    (h : a prev rest = n :: l) :
    reSearchAux a prev rest = some (prev.length, n) := by
  cases rest with
  | nil => rw [reSearchAux, h]
  | cons c rest1 => rw [reSearchAux, h]

theorem finditerAux_step {a : M} {prev : List Char} {c : Char} {rest : List Char}
    (h : a prev (c :: rest) = []) :
    finditerAux a prev (c :: rest) = finditerAux a (c :: prev) rest := by
  rw [finditerAux, h]

theorem finditerAux_nil {a : M} {prev : List Char} (h : a prev [] = []) :
    finditerAux a prev [] = [] := by
  rw [finditerAux, h]

theorem finditerAux_hit {a : M} {prev : List Char} {c : Char} {rest : List Char}
    {n : Nat} {l : List Nat} (h : a prev (c :: rest) = (n + 1) :: l) :
    finditerAux a prev (c :: rest)
      = (c :: rest).take (n + 1)
          :: finditerAux a (((c :: rest).take (n + 1)).reverse ++ prev)
               ((c :: rest).drop (n + 1)) := by
  rw [finditerAux, h]

/-! ## Lemmas about `set_id_pattern` -/

/-- Does the text before the current position end in `s/`?  (`prev` is the
reversed prefix, so this inspects its first two entries.) -/
def prevSS (prev : List Char) : Bool :=
  (prev.head? == some '/') && (prev.tail.head? == some 's')

theorem prevSS_iff (prev : List Char) :
    prevSS prev = true ↔ prev.take 2 = ['/', 's'] := by
  match prev with
  | [] => simp [prevSS]
  | [c] => simp [prevSS]
  | c :: d :: t => simp [prevSS, List.take]

theorem prevSS_cons_ne {c : Char} (h : ¬ c = '/') (t : List Char) :
    prevSS (c :: t) = false := by
  simp [prevSS, h]

theorem prevSS_digit {c : Char} (h : isDigitChar c = true) (t : List Char) :
    prevSS (c :: t) = false :=
  prevSS_cons_ne (ne_of_pred_mismatch h (by decide)) t

theorem countdown_eq_cons (m : Nat) : ∃ l, countdown m = m :: l := by
  cases m with
  | zero => exact ⟨[], rfl⟩
  | succ n => exact ⟨countdown n, rfl⟩

theorem mem_mRep_one_pred {p : Char → Bool} {h : Nat} {prev t : List Char} {n : Nat}
    (hh : 1 ≤ h) (hn : n ∈ mRep (mPred p) 1 h prev t) :
    1 ≤ n ∧ n ≤ min h (leadingCount p t) := by
  cases t with
  | nil =>
    rw [mRep_one_pred_nomatch p h prev [] (leadingCount_nil p)] at hn
    cases hn
  | cons c t1 =>
    by_cases pc : p c = true
    · rw [mRep_one_pred_match p h prev c t1 pc] at hn
      simp only [List.mem_map] at hn
      obtain ⟨j, hj, hn⟩ := hn
      rw [mem_countdown] at hj
      rw [leadingCount_cons_pos p t1 pc]
      have h5 : j ≤ h - 1 := le_trans hj (Nat.min_le_left _ _)
      have h6 : j ≤ leadingCount p t1 := le_trans hj (Nat.min_le_right _ _)
      exact ⟨by omega, Nat.le_min.mpr ⟨by omega, by omega⟩⟩
    · rw [mRep_one_pred_nomatch p h prev (c :: t1)
        (leadingCount_cons_neg p t1 (by  revert pc; cases p c <;> simp))] at hn
      cases hn

theorem lb4_ets (prev rest : List Char) :
    mLookBehindPos 4 (mStr ['e', 't', 's', '/']) prev rest
      = if prev.take 4 = ['/', 's', 't', 'e'] then [0] else [] :=
  mLookBehindPos_mStr ['e', 't', 's', '/'] prev rest

theorem lb2_ss (prev rest : List Char) :
    mLookBehindPos 2 (mStr ['s', '/']) prev rest
      = if prev.take 2 = ['/', 's'] then [0] else [] :=
  mLookBehindPos_mStr ['s', '/'] prev rest

/-- `set_id_pattern` cannot match at a position whose preceding text does not
end in `s/`: the `(?<=s/)` lookbehind fails. -/
theorem set_id_fail {prev rest : List Char} (h : prevSS prev = false) :
    set_id_pattern prev rest = [] := by
  unfold set_id_pattern
  refine mSeq_lookNeg_left _ _ (mSeq_nil_left _ ?_)
  rw [lb2_ss, if_neg]
  intro hc
  rw [(prevSS_iff prev).mpr hc] at h
  exact Bool.noConfusion h

/-- Searching `set_id_pattern` walks over a digit run without matching,
provided the position at the start of the run also fails. -/
theorem set_scan_digits (d : List Char) (hd : ∀ c ∈ d, isDigitChar c = true) :
    ∀ (prev r : List Char), prevSS prev = false →
      reSearchAux set_id_pattern prev (d ++ r)
        = reSearchAux set_id_pattern (d.reverse ++ prev) r := by
  induction d with
  | nil => intro prev r _; simp
  | cons c t ih =>
    intro prev r h
    rw [List.cons_append, reSearchAux_step (set_id_fail h),
      ih (fun x hx => hd x (by simp [hx])) (c :: prev) r
        (prevSS_digit (hd c (by simp)) prev)]
    congr 1
    simp

/-- At a position preceded by `ets/` and followed by 1–7 digits and a `#`,
the negative lookahead `(?!(?<=ets/)\d{1,7}(#|%23))` fires and
`set_id_pattern` does not match (the fragment case of C5). -/
theorem set_id_fail_ets_frag {prev : List Char} (a r : List Char)
    (hprev4 : prev.take 4 = ['/', 's', 't', 'e'])
    (ha : ∀ c ∈ a, isDigitChar c = true) (h1 : 1 ≤ a.length) (h7 : a.length ≤ 7)
    (hr : ∃ t, r = '#' :: t) :
    set_id_pattern prev (a ++ r) = [] := by
  obtain ⟨rt, hrt⟩ := hr
  subst hrt
  unfold set_id_pattern
  refine mSeq_nil_left _ (mLookNeg_fail ?_)
  rw [mSeq_zw_pass _ (by rw [lb4_ets, if_pos hprev4])]
  cases a with
  | nil => simp at h1
  | cons c t =>
    have hlead : leadingCount isDigitChar (t ++ '#' :: rt) = t.length := by
      refine leadingCount_append_stop _ t _ (fun x hx => ha x (by simp [hx])) ?_
      exact Or.inr ⟨'#', rt, rfl, by decide⟩
    rw [List.cons_append, mSeq_def,
      mRep_one_pred_match isDigitChar 7 prev c (t ++ '#' :: rt) (ha c (by simp)), hlead]
    have ht6 : min (7 - 1) t.length = t.length := by simp at h7 ⊢; omega
    rw [ht6]
    obtain ⟨l, hl⟩ := countdown_eq_cons t.length
    rw [hl]
    simp only [List.map_cons, List.flatMap_cons]
    have hdrop : (c :: (t ++ '#' :: rt)).drop (1 + t.length) = '#' :: rt := by
      rw [show (1 : Nat) + t.length = t.length + 1 from by omega]
      show (t ++ '#' :: rt).drop t.length = '#' :: rt
      exact List.drop_left t ('#' :: rt)
    rw [hdrop]
    have h1d : mAlt (mChar '#') (mStr ['%', '2', '3'])
        ((List.take (1 + t.length) (c :: (t ++ '#' :: rt))).reverse ++ prev) ('#' :: rt)
        = 1 :: mStr ['%', '2', '3']
            ((List.take (1 + t.length) (c :: (t ++ '#' :: rt))).reverse ++ prev) ('#' :: rt) := rfl
    rw [h1d]
    simp

/-- At a position preceded by `ets/` (hence also by `s/`) and followed by a
pure digit run to end-of-string, `set_id_pattern` matches, greedily taking
`min 7` of the run's digits. -/
theorem set_id_match_ets_eof {prev : List Char} (a : List Char)
    (hprev2 : prev.take 2 = ['/', 's'])
    (hprev4 : prev.take 4 = ['/', 's', 't', 'e'])
    (ha : ∀ c ∈ a, isDigitChar c = true) (h1 : 1 ≤ a.length) :
    ∃ l, set_id_pattern prev a = min 7 a.length :: l := by
  unfold set_id_pattern
  have hA : mSeq (mLookBehindPos 4 (mStr ['e', 't', 's', '/']))
      (mSeq (mRep mDigit 1 7) (mAlt (mChar '#') (mStr ['%', '2', '3']))) prev a = [] := by
    rw [mSeq_zw_pass _ (by rw [lb4_ets, if_pos hprev4])]
    refine mSeq_eq_nil_of_forall _ ?_
    intro n hn
    obtain ⟨hn1, hn2⟩ := mem_mRep_one_pred (by omega) hn
    cases hdrop : a.drop n with
    | nil => rw [mAlt_def]; rw [mChar_fail_nil, mStr_fail_nil]; rfl
    | cons c1 t1 =>
      have hc1 : isDigitChar c1 = true := by
        refine ha c1 (List.drop_subset n a ?_)
        rw [hdrop]; simp
      rw [mAlt_def,
        mStr_fail_head '%' _ (ne_of_pred_mismatch hc1 (by decide)) _]
      show mChar '#' _ (c1 :: t1) ++ [] = []
      rw [List.append_nil]
      show mPred (fun d => d == '#') _ (c1 :: t1) = []
      have : (c1 == '#') = false := by
        have := ne_of_pred_mismatch hc1 (show isDigitChar '#' = false from by decide)
        simp [this]
      simp [mPred, this]
  rw [mSeq_zw_pass _ (mLookNeg_pass hA),
    mSeq_zw_pass _ (by rw [lb2_ss, if_pos hprev2])]
  cases a with
  | nil => simp at h1
  | cons c t =>
    have := mRep_one_pred_head isDigitChar 7 (by omega) prev c t (ha c (by simp))
    rw [leadingCount_all isDigitChar (c :: t) ha] at this
    exact this

/-! ## Lemmas about `map_id_pattern` -/

/-- Does the text before the current position end in a word character
followed by `/` (the `(?<=\w/)` condition)? -/
def prevWS (prev : List Char) : Bool :=
  (prev.head? == some '/')
    && (match prev.tail.head? with
        | some d => isWordChar d
        | none => false)

theorem mLookBehindPos_zw_cases (k : Nat) (a : M) (prev rest : List Char) :
    mLookBehindPos k a prev rest = [] ∨ mLookBehindPos k a prev rest = [0] := by
  unfold mLookBehindPos
  by_cases h : (k ≤ prev.length && (a [] ((prev.take k).reverse)).contains k) = true
  · rw [if_pos h]; exact Or.inr rfl
  · rw [if_neg h]; exact Or.inl rfl

theorem mLookBehindNeg_zw_cases (k : Nat) (a : M) (prev rest : List Char) :
    mLookBehindNeg k a prev rest = [] ∨ mLookBehindNeg k a prev rest = [0] := by
  unfold mLookBehindNeg
  by_cases h : (k ≤ prev.length && (a [] ((prev.take k).reverse)).contains k) = true
  · rw [if_pos h]; exact Or.inl rfl
  · rw [if_neg h]; exact Or.inr rfl

theorem lb2_ws (prev rest : List Char) :
    mLookBehindPos 2 (mSeq mWord (mChar '/')) prev rest
      = if prevWS prev = true then [0] else [] := by
  match prev with
  | [] => simp [mLookBehindPos, prevWS]
  | [c] => simp [mLookBehindPos, prevWS]
  | c :: d :: t =>
    show (if 2 ≤ (c :: d :: t).length
          && ((mSeq mWord (mChar '/')) [] [d, c]).contains 2 then [0] else []) = _
    by_cases hd : isWordChar d = true
    · by_cases hc : c = '/'
      · have hin : (mSeq mWord (mChar '/')) [] [d, c] = [2] := by
          subst hc
          simp [mSeq, mWord, mPred, mChar, hd]
        rw [hin]
        have : prevWS (c :: d :: t) = true := by
          subst hc; simp [prevWS, hd]
        rw [this]
        simp
      · have hin : (mSeq mWord (mChar '/')) [] [d, c] = [] := by
          simp [mSeq, mWord, mPred, mChar, hd, hc]
        rw [hin]
        have : prevWS (c :: d :: t) = false := by
          simp [prevWS, hd, hc]
        rw [this]
        simp
    · have hin : (mSeq mWord (mChar '/')) [] [d, c] = [] := by
        simp [mSeq, mWord, mPred, mChar, hd]
      rw [hin]
      have : prevWS (c :: d :: t) = false := by
        simp [prevWS, hd]
      rw [this]
      simp

theorem lbneg4_ets (prev rest : List Char) :
    mLookBehindNeg 4 (mStr ['e', 't', 's', '/']) prev rest
      = if prev.take 4 = ['/', 's', 't', 'e'] then [] else [0] :=
  mLookBehindNeg_mStr ['e', 't', 's', '/'] prev rest

theorem lbneg3_ss (prev rest : List Char) :
    mLookBehindNeg 3 (mStr ['/', 's', '/']) prev rest
      = if prev.take 3 = ['/', 's', '/'] then [] else [0] :=
  mLookBehindNeg_mStr ['/', 's', '/'] prev rest

/-- `map_id_pattern` cannot match away from the string start when the
preceding text does not end in `\w/`. -/
theorem map_id_fail_ws {c : Char} {prev rest : List Char}
    (hws : prevWS (c :: prev) = false) :
    map_id_pattern (c :: prev) rest = [] := by
  unfold map_id_pattern
  rw [mAlt_def, mSeq_mStart_cons, List.append_nil]
  refine mSeq_zw_cases _ (mLookBehindNeg_zw_cases 4 _ _ _) ?_
  refine mSeq_zw_cases _ (mLookBehindNeg_zw_cases 3 _ _ _) ?_
  refine mSeq_nil_left _ ?_
  rw [lb2_ws, if_neg]
  rw [hws]
  exact Bool.noConfusion

/-- `map_id_pattern` cannot match right after `ets/`: the `(?<!ets/)`
lookbehind fires (this is what skips the set id inside a full link). -/
theorem map_id_fail_ets {c : Char} {prev rest : List Char}
    (h4 : (c :: prev).take 4 = ['/', 's', 't', 'e']) :
    map_id_pattern (c :: prev) rest = [] := by
  unfold map_id_pattern
  rw [mAlt_def, mSeq_mStart_cons, List.append_nil]
  refine mSeq_nil_left _ ?_
  rw [lbneg4_ets, if_pos h4]

/-- `map_id_pattern` cannot match away from the string start when the text
at the position does not begin with a digit. -/
theorem map_id_fail_nodigit {c : Char} {prev rest : List Char}
    (hr : leadingCount isDigitChar rest = 0) :
    map_id_pattern (c :: prev) rest = [] := by
  unfold map_id_pattern
  rw [mAlt_def, mSeq_mStart_cons, List.append_nil]
  refine mSeq_zw_cases _ (mLookBehindNeg_zw_cases 4 _ _ _) ?_
  refine mSeq_zw_cases _ (mLookBehindNeg_zw_cases 3 _ _ _) ?_
  refine mSeq_zw_cases _ (mLookBehindPos_zw_cases 2 _ _ _) ?_
  exact mRep_one_pred_nomatch isDigitChar 8 _ rest hr

/-- Where `(?<=\w/)` holds, the two negative lookbehinds pass and a digit
run follows, `map_id_pattern` matches `min 8` of the run's digits. -/
theorem map_id_match {prev : List Char} (c : Char) (t : List Char)
    (hws : prevWS prev = true)
    (h4 : ¬ prev.take 4 = ['/', 's', 't', 'e'])
    (h3 : ¬ prev.take 3 = ['/', 's', '/'])
    (hc : isDigitChar c = true) :
    ∃ l, map_id_pattern prev (c :: t)
      = min 8 (leadingCount isDigitChar (c :: t)) :: l := by
  unfold map_id_pattern
  rw [mAlt_def,
    mSeq_zw_pass _ (by rw [lbneg4_ets, if_neg h4]),
    mSeq_zw_pass _ (by rw [lbneg3_ss, if_neg h3]),
    mSeq_zw_pass _ (by rw [lb2_ws, if_pos hws])]
  obtain ⟨l, hl⟩ := mRep_one_pred_head isDigitChar 8 (by omega) prev c t hc
  refine ⟨l ++ mSeq mStart (mRep mDigit 1 8) prev (c :: t), ?_⟩
  rw [hl]
  rfl

/-- At the very start of the input a digit run matches via the `^\d{1,8}`
alternative (the `(?<=\w/)` branch needs two preceding characters). -/
theorem map_id_match_start (c : Char) (t : List Char)
    (hc : isDigitChar c = true) :
    ∃ l, map_id_pattern [] (c :: t)
      = min 8 (leadingCount isDigitChar (c :: t)) :: l := by
  unfold map_id_pattern
  rw [mAlt_def]
  have hb1 : mSeq (mLookBehindNeg 4 (mStr ['e', 't', 's', '/']))
      (mSeq (mLookBehindNeg 3 (mStr ['/', 's', '/']))
        (mSeq (mLookBehindPos 2 (mSeq mWord (mChar '/')))
          (mRep mDigit 1 8))) [] (c :: t) = [] := by
    refine mSeq_zw_cases _ (mLookBehindNeg_zw_cases 4 _ _ _) ?_
    refine mSeq_zw_cases _ (mLookBehindNeg_zw_cases 3 _ _ _) ?_
    refine mSeq_nil_left _ ?_
    simp [mLookBehindPos]
  rw [hb1, List.nil_append, mSeq_mStart_nil]
  exact mRep_one_pred_head isDigitChar 8 (by omega) [] c t hc

/-! ## Lemmas about `osu_link_pattern` -/

theorem drop_shape (u : List Char) (p : Char → Bool) (hu : ∀ x ∈ u, p x = true)
    (k : Nat) : u.drop k = [] ∨ ∃ c t, u.drop k = c :: t ∧ p c = true := by
  cases hd : u.drop k with
  | nil => exact Or.inl rfl
  | cons c t =>
    refine Or.inr ⟨c, t, rfl, hu c (List.drop_subset k u ?_)⟩
    rw [hd]; simp

theorem mOpt_nil {a : M} {prev rest : List Char} (h : a prev rest = []) :
    mOpt a prev rest = [0] := by
  rw [mOpt, mAlt_def, h]
  rfl

theorem mOpt_val (a : M) (prev rest : List Char) :
    mOpt a prev rest = a prev rest ++ [0] := by
  rw [mOpt, mAlt_def]
  rfl

/-- `osu_link_tail` (the fragment/query alternatives) fails wherever the
text starts with a digit or ends, and every position reachable by its
`\w{1,7}` prefix holds a digit or a `#`. -/
theorem osu_link_tail_fail (prev rest : List Char)
    (h0 : rest = [] ∨ ∃ c t, rest = c :: t ∧ isDigitChar c = true)
    (hofs : ∀ k, k ≤ min 7 (leadingCount isWordChar rest) →
      rest.drop k = [] ∨ ∃ c t, rest.drop k = c :: t ∧ (isDigitChar c = true ∨ c = '#')) :
    osu_link_tail prev rest = [] := by
  unfold osu_link_tail
  rw [mAlt_def]
  have hfrag : mSeq (mAlt (mChar '#') (mStr ['%', '2', '3']))
      (mSeq (mRep mWord 1 5) (mSeq (mChar '/') (mRep mDigit 1 8))) prev rest = [] := by
    refine mSeq_nil_left _ ?_
    rw [mAlt_def]
    rcases h0 with h | ⟨c, t, hct, hc⟩
    · subst h
      rw [mChar_fail_nil, mStr_fail_nil]
      rfl
    · subst hct
      rw [mStr_fail_head '%' _ (ne_of_pred_mismatch hc (by decide)) _, List.append_nil]
      show mPred (fun d => d == '#') prev (c :: t) = []
      have : (c == '#') = false := by
        simp [ne_of_pred_mismatch hc (show isDigitChar '#' = false from by decide)]
      simp [mPred, this]
  have hqb : mSeq (mRep mWord 1 7)
      (mSeq (mStr ['?', 'b', '='])
        (mSeq (mRep mDigit 1 8) (mOpt (mSeq (mStr ['&', 'm', '=']) mDigit)))) prev rest = [] := by
    refine mSeq_eq_nil_of_forall _ ?_
    intro n hn
    obtain ⟨hn1, hn2⟩ := mem_mRep_one_pred (by omega) hn
    refine mSeq_nil_left _ ?_
    rcases hofs n hn2 with h | ⟨c, t, hct, hc⟩
    · rw [h, mStr_fail_nil]
    · rw [hct]
      refine mStr_fail_head '?' _ ?_ _
      rcases hc with hc | hc
      · exact ne_of_pred_mismatch hc (by decide)
      · subst hc; decide
  rw [hfrag, hqb]
  rfl

/-- On a pure digit run to end-of-string (length 1–8), `osu_link_inner`
matches the whole run (the `(\d{1,8})?(fragment|query)` alternative fails,
the plain `\d{1,8}` one consumes everything). -/
theorem osu_link_inner_digits_eof (prev : List Char) (c : Char) (t : List Char)
    (hall : ∀ x ∈ c :: t, isDigitChar x = true) (h8 : (c :: t).length ≤ 8) :
    ∃ l, osu_link_inner prev (c :: t) = (c :: t).length :: l := by
  unfold osu_link_inner
  rw [mAlt_def]
  have hA : mSeq (mOpt (mRep mDigit 1 8)) osu_link_tail prev (c :: t) = [] := by
    refine mSeq_eq_nil_of_forall _ ?_
    intro n hn
    rw [mOpt_val] at hn
    have hn8 : n ≤ (c :: t).length := by
      rcases List.mem_append.mp hn with h | h
      · have := (mem_mRep_one_pred (by omega) h).2
        calc n ≤ min 8 (leadingCount isDigitChar (c :: t)) := this
          _ ≤ leadingCount isDigitChar (c :: t) := Nat.min_le_right _ _
          _ = (c :: t).length := leadingCount_all _ _ hall
      · simp at h; omega
    refine osu_link_tail_fail _ _ (drop_shape _ _ hall n) ?_
    intro k _
    rw [List.drop_drop]
    rcases drop_shape (c :: t) isDigitChar hall (n + k) with h | ⟨c1, t1, hct, hc1⟩
    · exact Or.inl h
    · exact Or.inr ⟨c1, t1, hct, Or.inl hc1⟩
  rw [hA, List.nil_append]
  obtain ⟨l, hl⟩ := mRep_one_pred_head isDigitChar 8 (by omega) prev c t (hall c (by simp))
  rw [leadingCount_all _ _ hall] at hl
  rw [hl, Nat.min_eq_right h8]
  exact ⟨l, rfl⟩

/-- `osu_link_tail` fails at every position strictly inside the digit run
`a` when the run is followed by `#osu/` and more digits. -/
theorem osu_link_tail_fail_inside (a b : List Char)
    (ha : ∀ x ∈ a, isDigitChar x = true)
    (pr : List Char) (n : Nat) (hn : n < a.length) :
    osu_link_tail pr (a.drop n ++ ('#' :: 'o' :: 's' :: 'u' :: '/' :: b)) = [] := by
  refine osu_link_tail_fail _ _ ?_ ?_
  · cases hd : a.drop n with
    | nil =>
      exfalso
      have := congrArg List.length hd
      simp at this
      omega
    | cons c1 t1 =>
      refine Or.inr ⟨c1, t1 ++ ('#' :: 'o' :: 's' :: 'u' :: '/' :: b), rfl, ?_⟩
      refine ha c1 (List.drop_subset n a ?_)
      rw [hd]; simp
  · intro k hk
    have hword : ∀ x ∈ a.drop n, isWordChar x = true := fun x hx =>
      isWordChar_of_isDigitChar (ha x (List.drop_subset n a hx))
    have hlead : leadingCount isWordChar
        (a.drop n ++ ('#' :: 'o' :: 's' :: 'u' :: '/' :: b)) = (a.drop n).length := by
      refine leadingCount_append_stop _ _ _ hword (Or.inr ⟨'#', _, rfl, by decide⟩)
    rw [hlead] at hk
    have hk2 : k ≤ (a.drop n).length := le_trans hk (Nat.min_le_right _ _)
    rw [List.drop_append_of_le_length hk2]
    cases hd : (a.drop n).drop k with
    | nil => exact Or.inr ⟨'#', _, rfl, Or.inr rfl⟩
    | cons c1 t1 =>
      refine Or.inr ⟨c1, t1 ++ ('#' :: 'o' :: 's' :: 'u' :: '/' :: b), rfl, Or.inl ?_⟩
      refine ha c1 (List.drop_subset n a (List.drop_subset k (a.drop n) ?_))
      rw [hd]; simp

/-- Head of a concatenation match: if the first matcher's preferred length
is `n` and the continuation at `n` has preferred length `v`, the preferred
match of the sequence is `n + v` (later backtracking candidates are
irrelevant for the head). -/
theorem mSeq_head {a b : M} {prev rest : List Char} {n v : Nat} {ns vs : List Nat}
    (ha : a prev rest = n :: ns)
    (hb : b ((rest.take n).reverse ++ prev) (rest.drop n) = v :: vs) :
    ∃ l, mSeq a b prev rest = (n + v) :: l := by
  rw [mSeq_def, ha, List.flatMap_cons, hb, List.map_cons]
  exact ⟨_, rfl⟩

theorem mSeq_head2 {a b : M} {prev rest : List Char} {n v : Nat} {ns : List Nat}
    (ha : a prev rest = n :: ns)
    (hb : ∃ vs, b ((rest.take n).reverse ++ prev) (rest.drop n) = v :: vs) :
    ∃ l, mSeq a b prev rest = (n + v) :: l := by
  obtain ⟨vs, hb⟩ := hb
  exact mSeq_head ha hb

theorem mAlt_head_left {a b : M} {prev rest : List Char} {v : Nat} {vs : List Nat}
    (ha : a prev rest = v :: vs) :
    ∃ l, mAlt a b prev rest = v :: l := by
  rw [mAlt_def, ha]
  exact ⟨_, rfl⟩

theorem exists_cons_head_congr {xs : List Nat} {v w : Nat} (hvw : v = w)
    (h : ∃ l, xs = v :: l) : ∃ l, xs = w :: l := hvw ▸ h

/-- A strict version of `countdown_eq_cons`: the tail entries are smaller. -/
theorem countdown_cons_strict (m : Nat) :
    ∃ l, countdown m = m :: l ∧ ∀ j ∈ l, j < m := by
  cases m with
  | zero => exact ⟨[], rfl, by simp⟩
  | succ n =>
    refine ⟨countdown n, rfl, fun j hj => ?_⟩
    rw [mem_countdown] at hj
    omega

/-- On `#osu/<digits>`, `osu_link_tail` matches the whole text via its
fragment alternative, preferring the full digit run (1–8 digits). -/
theorem osu_link_tail_frag_head (pr : List Char) (cb : Char) (tb : List Char)
    (hb : ∀ x ∈ cb :: tb, isDigitChar x = true) (h8b : (cb :: tb).length ≤ 8) :
    ∃ l1, osu_link_tail pr ('#' :: 'o' :: 's' :: 'u' :: '/' :: (cb :: tb))
      = (5 + (cb :: tb).length) :: l1 := by
  unfold osu_link_tail
  have hALT : mAlt (mChar '#') (mStr ['%', '2', '3']) pr
      ('#' :: 'o' :: 's' :: 'u' :: '/' :: (cb :: tb)) = 1 :: [] := by
    rw [mAlt_def, mStr_fail_head '%' _ (by decide) _, List.append_nil]
    rfl
  have hfrag : ∃ l3, mSeq (mAlt (mChar '#') (mStr ['%', '2', '3']))
      (mSeq (mRep mWord 1 5) (mSeq (mChar '/') (mRep mDigit 1 8))) pr
      ('#' :: 'o' :: 's' :: 'u' :: '/' :: (cb :: tb))
      = (1 + (3 + (1 + (cb :: tb).length))) :: l3 := by
    refine mSeq_head2 hALT ?_
    have hrepW : mRep mWord 1 5
        ((List.take 1 ('#' :: 'o' :: 's' :: 'u' :: '/' :: (cb :: tb))).reverse ++ pr)
        (List.drop 1 ('#' :: 'o' :: 's' :: 'u' :: '/' :: (cb :: tb)))
        = 3 :: [2, 1] := by
      show mRep mWord 1 5 _ ('o' :: 's' :: 'u' :: '/' :: (cb :: tb)) = _
      rw [mRep_one_pred_match isWordChar 5 _ 'o' _ (by decide)]
      rw [show leadingCount isWordChar ('s' :: 'u' :: '/' :: (cb :: tb)) = 2 from by
        rw [leadingCount_cons_pos _ _ (by decide), leadingCount_cons_pos _ _ (by decide),
          leadingCount_cons_neg _ _ (by decide)]]
      rfl
    refine mSeq_head2 hrepW ?_
    show ∃ vs, mSeq (mChar '/') (mRep mDigit 1 8) _ ('/' :: (cb :: tb)) = _ :: vs
    rw [mSeq_mChar_cons, if_pos rfl]
    obtain ⟨lb, hlb⟩ := mRep_one_pred_head isDigitChar 8 (by omega)
      ('/' :: ((List.take 3 (List.drop 1 ('#' :: 'o' :: 's' :: 'u' :: '/' :: (cb :: tb)))).reverse ++
        ((List.take 1 ('#' :: 'o' :: 's' :: 'u' :: '/' :: (cb :: tb))).reverse ++ pr)))
      cb tb (hb cb (by simp))
    rw [leadingCount_all _ _ hb, Nat.min_eq_right h8b] at hlb
    rw [hlb, List.map_cons]
    exact ⟨_, rfl⟩
  obtain ⟨l3, hl3⟩ := hfrag
  refine ⟨l3 ++ mSeq (mRep mWord 1 7)
      (mSeq (mStr ['?', 'b', '='])
        (mSeq (mRep mDigit 1 8) (mOpt (mSeq (mStr ['&', 'm', '=']) mDigit)))) pr
      ('#' :: 'o' :: 's' :: 'u' :: '/' :: (cb :: tb)), ?_⟩
  rw [mAlt_def, hl3,
    show 1 + (3 + (1 + (cb :: tb).length)) = 5 + (cb :: tb).length from by omega]
  rfl

/-- On `a ++ '#osu/' ++ b` with digit runs `a` (1–8) and `b` (1–8),
`osu_link_inner` prefers the match consuming the whole text. -/
theorem osu_link_inner_frag (prev : List Char) (a b : List Char)
    (ha : ∀ x ∈ a, isDigitChar x = true) (h1a : 1 ≤ a.length) (h8a : a.length ≤ 8)
    (hb : ∀ x ∈ b, isDigitChar x = true) (h1b : 1 ≤ b.length) (h8b : b.length ≤ 8) :
    ∃ l, osu_link_inner prev (a ++ ('#' :: 'o' :: 's' :: 'u' :: '/' :: b))
      = (a.length + 5 + b.length) :: l := by
  cases a with
  | nil => simp at h1a
  | cons c t =>
  cases b with
  | nil => simp at h1b
  | cons cb tb =>
  unfold osu_link_inner
  obtain ⟨l0, hl0⟩ := countdown_eq_cons t.length
  have hlead : leadingCount isDigitChar
      (t ++ ('#' :: 'o' :: 's' :: 'u' :: '/' :: (cb :: tb))) = t.length := by
    refine leadingCount_append_stop _ t _ (fun x hx => ha x (by simp [hx])) ?_
    exact Or.inr ⟨'#', _, rfl, by decide⟩
  have hopt : mOpt (mRep mDigit 1 8) prev
      ((c :: t) ++ ('#' :: 'o' :: 's' :: 'u' :: '/' :: (cb :: tb)))
      = (1 + t.length) :: ((l0.map fun m => 1 + m) ++ [0]) := by
    rw [mOpt_val, List.cons_append,
      mRep_one_pred_match isDigitChar 8 prev c _ (ha c (by simp)), hlead,
      show min (8 - 1) t.length = t.length from by simp at h8a ⊢; omega, hl0]
    rfl
  have hbody : ∃ l4, mSeq (mOpt (mRep mDigit 1 8)) osu_link_tail prev
      ((c :: t) ++ ('#' :: 'o' :: 's' :: 'u' :: '/' :: (cb :: tb)))
      = ((1 + t.length) + (5 + (cb :: tb).length)) :: l4 := by
    refine mSeq_head2 hopt ?_
    have hdropF : List.drop (1 + t.length)
        ((c :: t) ++ ('#' :: 'o' :: 's' :: 'u' :: '/' :: (cb :: tb)))
        = '#' :: 'o' :: 's' :: 'u' :: '/' :: (cb :: tb) := by
      rw [show (1 : Nat) + t.length = (c :: t).length from by simp; omega]
      exact List.drop_left (c :: t) _
    rw [hdropF]
    exact osu_link_tail_frag_head _ cb tb hb h8b
  obtain ⟨l4, hl4⟩ := hbody
  refine ⟨l4 ++ mRep mDigit 1 8 prev
      ((c :: t) ++ ('#' :: 'o' :: 's' :: 'u' :: '/' :: (cb :: tb))), ?_⟩
  rw [mAlt_def, hl4,
    show (1 + t.length) + (5 + (cb :: tb).length)
      = (c :: t).length + 5 + (cb :: tb).length from by simp; omega]
  rfl

theorem mSeq_mStr_head {s : List Char} {b : M} {prev rest : List Char} {v : Nat}
    (hpre : s.isPrefixOf rest = true)
    (hb : ∃ vs, b (s.reverse ++ prev) (rest.drop s.length) = v :: vs) :
    ∃ l, mSeq (mStr s) b prev rest = (s.length + v) :: l := by
  obtain ⟨vs, hb⟩ := hb
  rw [mSeq_mStr_starts s b prev rest hpre, hb, List.map_cons]
  exact ⟨_, rfl⟩

theorem osu_link_fail_nil (c : Char) (prev : List Char) :
    osu_link_pattern (c :: prev) [] = [] := by
  unfold osu_link_pattern
  rw [mAlt_def, mSeq_mStart_cons, List.append_nil,
    mSeq_zw_pass _ (mOpt_nil (mSeq_nil_left _ (mStr_fail_nil 'h' _ _)))]
  exact mSeq_nil_left _ (mStr_fail_nil 'o' _ _)

theorem osu_link_fail_cons (p0 : Char) (prev : List Char) (d : Char)
    (rest : List Char) (hd_h : ¬ d = 'h') (hd_o : ¬ d = 'o') :
    osu_link_pattern (p0 :: prev) (d :: rest) = [] := by
  unfold osu_link_pattern
  rw [mAlt_def, mSeq_mStart_cons, List.append_nil,
    mSeq_zw_pass _ (mOpt_nil (mSeq_nil_left _ (mStr_fail_head 'h' _ hd_h _)))]
  exact mSeq_nil_left _ (mStr_fail_head 'o' _ hd_o _)

/-- At the start of the input, a leading digit makes the whole link pattern
fall through to its `^\d{1,8}` alternative, matching greedily. -/
theorem osu_link_start_digits (c : Char) (t : List Char)
    (hc : isDigitChar c = true) :
    ∃ l, osu_link_pattern [] (c :: t)
      = min 8 (leadingCount isDigitChar (c :: t)) :: l := by
  unfold osu_link_pattern
  have hb1 : mSeq (mOpt (mSeq (mStr ['h', 't', 't', 'p']) (mRepUpTo mDot 4)))
      (mSeq (mStr ['o', 's', 'u', '.', 'p', 'p', 'y', '.', 's', 'h', '/'])
        (mSeq (mLookNeg (mChar 'u'))
          (mSeq (mRep mWord 1 11) (mSeq (mChar '/') osu_link_inner)))) [] (c :: t) = [] := by
    rw [mSeq_zw_pass _ (mOpt_nil
      (mSeq_nil_left _ (mStr_fail_head 'h' _ (ne_of_pred_mismatch hc (by decide)) _)))]
    exact mSeq_nil_left _ (mStr_fail_head 'o' _ (ne_of_pred_mismatch hc (by decide)) _)
  rw [mAlt_def, hb1, List.nil_append, mSeq_mStart_nil]
  exact mRep_one_pred_head isDigitChar 8 (by omega) [] c t hc

/-- `finditerAux` finds nothing in a tail consisting solely of digits and
newlines when not at the start of the string. -/
theorem osu_scan_tail : ∀ (rest prev : List Char), prev ≠ [] →
    (∀ c ∈ rest, isDigitChar c = true ∨ c = '\n') →
    finditerAux osu_link_pattern prev rest = [] := by
  intro rest
  induction rest with
  | nil =>
    intro prev hne _
    cases prev with
    | nil => exact absurd rfl hne
    | cons p0 pr => exact finditerAux_nil (osu_link_fail_nil p0 pr)
  | cons d rest1 ih =>
    intro prev hne hall
    cases prev with
    | nil => exact absurd rfl hne
    | cons p0 pr =>
      have hd : ¬ d = 'h' ∧ ¬ d = 'o' := by
        rcases hall d (by simp) with h | h
        · exact ⟨ne_of_pred_mismatch h (by decide), ne_of_pred_mismatch h (by decide)⟩
        · subst h; exact ⟨by decide, by decide⟩
      rw [finditerAux_step (osu_link_fail_cons p0 pr d rest1 hd.1 hd.2)]
      exact ih (d :: p0 :: pr) (by simp) fun x hx => hall x (by simp [hx])

/-- Stepping the full link pattern over the literal prefix
`https://osu.ppy.sh/beatmapsets/`: the preferred match length is 31 plus
the preferred match length of `osu_link_inner` on what follows. -/
theorem osu_link_head_on_prefix (s : List Char) (ih : Nat)
    (hinner : ∀ pr : List Char, ∃ vs, osu_link_inner pr s = ih :: vs) :
    ∃ l, osu_link_pattern [] ("https://osu.ppy.sh/beatmapsets/".toList ++ s)
      = (31 + ih) :: l := by
  unfold osu_link_pattern
  have hopt : mOpt (mSeq (mStr ['h', 't', 't', 'p']) (mRepUpTo mDot 4)) []
      ("https://osu.ppy.sh/beatmapsets/".toList ++ s)
      = 8 :: ([7, 6, 5, 4] ++ [0]) := by
    rw [mOpt_val,
      mSeq_mStr_starts ['h', 't', 't', 'p'] _ _ _ (by rfl)]
    rw [show ("https://osu.ppy.sh/beatmapsets/".toList ++ s).drop
        (['h', 't', 't', 'p'] : List Char).length
        = "s://osu.ppy.sh/beatmapsets/".toList ++ s from rfl]
    rw [mRepUpTo_pred,
      leadingCount_append_all isDotChar "s://osu.ppy.sh/beatmapsets/".toList s (by decide),
      show ("s://osu.ppy.sh/beatmapsets/".toList).length = 27 from rfl,
      Nat.min_eq_left (by omega)]
    rfl
  have hbody : ∃ l4, mSeq
      (mOpt (mSeq (mStr ['h', 't', 't', 'p']) (mRepUpTo mDot 4)))
      (mSeq (mStr ['o', 's', 'u', '.', 'p', 'p', 'y', '.', 's', 'h', '/'])
        (mSeq (mLookNeg (mChar 'u'))
          (mSeq (mRep mWord 1 11) (mSeq (mChar '/') osu_link_inner)))) []
      ("https://osu.ppy.sh/beatmapsets/".toList ++ s)
      = (8 + (11 + (11 + (1 + ih)))) :: l4 := by
    refine mSeq_head2 hopt ?_
    rw [show ("https://osu.ppy.sh/beatmapsets/".toList ++ s).drop 8
        = "osu.ppy.sh/beatmapsets/".toList ++ s from rfl]
    refine mSeq_mStr_head (by rfl) ?_
    rw [show ("osu.ppy.sh/beatmapsets/".toList ++ s).drop
        (['o', 's', 'u', '.', 'p', 'p', 'y', '.', 's', 'h', '/'] : List Char).length
        = "beatmapsets/".toList ++ s from rfl]
    rw [mSeq_zw_pass _ (mLookNeg_pass (show mChar 'u' _ ("beatmapsets/".toList ++ s) = [] from rfl))]
    have hrepW : mRep mWord 1 11 (['o', 's', 'u', '.', 'p', 'p', 'y', '.', 's', 'h', '/'].reverse
        ++ (((("https://osu.ppy.sh/beatmapsets/".toList ++ s).take 8)).reverse ++ []))
        ("beatmapsets/".toList ++ s)
        = 11 :: ((countdown 9).map fun m => 1 + m) := by
      rw [show ("beatmapsets/".toList ++ s) = 'b' :: ("eatmapsets/".toList ++ s) from rfl,
        mRep_one_pred_match isWordChar 11 _ 'b' _ (by decide)]
      rw [show ("eatmapsets/".toList ++ s) = "eatmapsets".toList ++ ('/' :: s) from rfl,
        leadingCount_append_stop isWordChar "eatmapsets".toList ('/' :: s) (by decide)
          (Or.inr ⟨'/', s, rfl, by decide⟩)]
      rfl
    refine mSeq_head2 hrepW ?_
    rw [show ("beatmapsets/".toList ++ s).drop 11 = '/' :: s from rfl,
      mSeq_mChar_cons, if_pos rfl]
    obtain ⟨vs, hvs⟩ := hinner ('/' :: ((("beatmapsets/".toList ++ s).take 11).reverse ++
      (['o', 's', 'u', '.', 'p', 'p', 'y', '.', 's', 'h', '/'].reverse
        ++ (((("https://osu.ppy.sh/beatmapsets/".toList ++ s).take 8)).reverse ++ []))))
    rw [hvs, List.map_cons]
    exact ⟨_, rfl⟩
  obtain ⟨l4, hl4⟩ := hbody
  refine ⟨l4 ++ mSeq mStart (mRep mDigit 1 8) []
      ("https://osu.ppy.sh/beatmapsets/".toList ++ s), ?_⟩
  rw [mAlt_def, hl4, show 8 + (11 + (11 + (1 + ih))) = 31 + ih from by omega]
  rfl

/-! ## Scanning over a concrete literal prefix -/

/-- `set_id_pattern` finds nothing while scanning across a prefix `P` all of
whose positions have preceding text not ending in `s/`. -/
theorem set_scan_noSS (P : List Char) : ∀ (prev s : List Char),
    (∀ i, i < P.length → prevSS ((P.take i).reverse ++ prev) = false) →
    reSearchAux set_id_pattern prev (P ++ s)
      = reSearchAux set_id_pattern (P.reverse ++ prev) s := by
  induction P with
  | nil => intro prev s _; simp
  | cons c t ih =>
    intro prev s h
    have h0 : prevSS prev = false := by
      have := h 0 (by simp)
      simpa using this
    rw [List.cons_append, reSearchAux_step (set_id_fail h0)]
    have h1 : ∀ i, i < t.length → prevSS ((t.take i).reverse ++ (c :: prev)) = false := by
      intro i hi
      have := h (i + 1) (by simp; omega)
      rw [show ((c :: t).take (i + 1)).reverse ++ prev
          = (t.take i).reverse ++ (c :: prev) from by
        simp [List.take_cons, List.reverse_cons, List.append_assoc]] at this
      exact this
    rw [ih (c :: prev) s h1]
    congr 1
    simp

/-- A Boolean sufficient condition for `map_id_pattern` to fail at a
position, given the reversed preceding text and the upcoming character. -/
def mapFailCond (prev : List Char) (nextChar : Option Char) : Bool :=
  match prev with
  | [] =>
    match nextChar with
    | some c => !(isDigitChar c)
    | none => true
  | _ :: _ =>
    (prevWS prev == false) || (prev.take 4 == ['/', 's', 't', 'e'])
      || (match nextChar with
          | some c => !(isDigitChar c)
          | none => true)

/-- `map_id_pattern` fails at the start of the string when no digit follows. -/
theorem map_id_fail_start_nodigit {rest : List Char}
    (hr : leadingCount isDigitChar rest = 0) : map_id_pattern [] rest = [] := by
  unfold map_id_pattern
  rw [mAlt_def, mSeq_mStart_nil]
  have hb1 : mSeq (mLookBehindNeg 4 (mStr ['e', 't', 's', '/']))
      (mSeq (mLookBehindNeg 3 (mStr ['/', 's', '/']))
        (mSeq (mLookBehindPos 2 (mSeq mWord (mChar '/')))
          (mRep mDigit 1 8))) [] rest = [] := by
    refine mSeq_zw_cases _ (mLookBehindNeg_zw_cases 4 _ _ _) ?_
    refine mSeq_zw_cases _ (mLookBehindNeg_zw_cases 3 _ _ _) ?_
    refine mSeq_nil_left _ ?_
    simp [mLookBehindPos]
  rw [hb1, List.nil_append]
  exact mRep_one_pred_nomatch isDigitChar 8 _ rest hr

theorem mapFailCond_sound (prev rest : List Char)
    (h : mapFailCond prev rest.head? = true) : map_id_pattern prev rest = [] := by
  cases prev with
  | nil =>
    refine map_id_fail_start_nodigit ?_
    cases rest with
    | nil => rfl
    | cons c t =>
      simp only [mapFailCond, List.head?] at h
      exact leadingCount_cons_neg _ _ (by revert h; cases isDigitChar c <;> simp)
  | cons c0 pr =>
    simp only [mapFailCond, Bool.or_eq_true, beq_iff_eq] at h
    rcases h with (h | h) | h
    · exact map_id_fail_ws h
    · exact map_id_fail_ets h
    · refine map_id_fail_nodigit ?_
      cases rest with
      | nil => rfl
      | cons c t =>
        simp only [List.head?] at h
        exact leadingCount_cons_neg _ _ (by revert h; cases isDigitChar c <;> simp)

/-- `map_id_pattern` finds nothing while scanning across a prefix `P` whose
positions all satisfy `mapFailCond`. -/
theorem map_scan_cond (P : List Char) : ∀ (prev s : List Char),
    (∀ i, i < P.length →
      mapFailCond ((P.take i).reverse ++ prev) ((P.drop i).head?) = true) →
    reSearchAux map_id_pattern prev (P ++ s)
      = reSearchAux map_id_pattern (P.reverse ++ prev) s := by
  induction P with
  | nil => intro prev s _; simp
  | cons c t ih =>
    intro prev s h
    have h0 : map_id_pattern prev (c :: (t ++ s)) = [] := by
      refine mapFailCond_sound _ _ ?_
      have := h 0 (by simp)
      simpa using this
    rw [List.cons_append, reSearchAux_step h0]
    have h1 : ∀ i, i < t.length →
        mapFailCond ((t.take i).reverse ++ (c :: prev)) ((t.drop i).head?) = true := by
      intro i hi
      have := h (i + 1) (by simp; omega)
      rw [show ((c :: t).take (i + 1)).reverse ++ prev
          = (t.take i).reverse ++ (c :: prev) from by
        simp [List.take_cons, List.reverse_cons, List.append_assoc],
        show (c :: t).drop (i + 1) = t.drop i from rfl] at this
      exact this
    rw [ih (c :: prev) s h1]
    congr 1
    simp

/-! ## Reversed digit runs never present `s/` or `\w/` behind a position -/

theorem prevSS_reverse_digits (d : List Char) (hd : ∀ c ∈ d, isDigitChar c = true)
    (hne : d ≠ []) (z : List Char) : prevSS (d.reverse ++ z) = false := by
  induction d generalizing z with
  | nil => exact absurd rfl hne
  | cons c t ih =>
    rw [List.reverse_cons, List.append_assoc]
    cases t with
    | nil => exact prevSS_digit (hd c (by simp)) _
    | cons c1 t1 =>
      exact ih (fun x hx => hd x (by simp [hx])) (by simp) _

theorem prevWS_cons_ne {x : Char} (h : ¬ x = '/') (t : List Char) :
    prevWS (x :: t) = false := by
  simp [prevWS, h]

theorem prevWS_digit {c : Char} (h : isDigitChar c = true) (t : List Char) :
    prevWS (c :: t) = false :=
  prevWS_cons_ne (ne_of_pred_mismatch h (by decide)) t

theorem prevWS_reverse_digits (d : List Char) (hd : ∀ c ∈ d, isDigitChar c = true)
    (hne : d ≠ []) (z : List Char) : prevWS (d.reverse ++ z) = false := by
  induction d generalizing z with
  | nil => exact absurd rfl hne
  | cons c t ih =>
    rw [List.reverse_cons, List.append_assoc]
    cases t with
    | nil => exact prevWS_digit (hd c (by simp)) _
    | cons c1 t1 =>
      exact ih (fun x hx => hd x (by simp [hx])) (by simp) _

/-- Scanning `set_id_pattern` over a digit run (with a failing start). -/
theorem map_scan_digits (d : List Char) (hd : ∀ c ∈ d, isDigitChar c = true) :
    ∀ (c0 : Char) (pr r : List Char), prevWS (c0 :: pr) = false →
      reSearchAux map_id_pattern (c0 :: pr) (d ++ r)
        = reSearchAux map_id_pattern (d.reverse ++ (c0 :: pr)) r := by
  induction d with
  | nil => intro c0 pr r _; simp
  | cons c t ih =>
    intro c0 pr r h
    have h0 : map_id_pattern (c0 :: pr) (c :: (t ++ r)) = [] := map_id_fail_ws h
    rw [List.cons_append, reSearchAux_step h0,
      ih (fun x hx => hd x (by simp [hx])) c (c0 :: pr) r
        (prevWS_digit (hd c (by simp)) (c0 :: pr))]
    congr 1
    simp

theorem take_min_length {α : Type} (l : List α) (n : Nat) :
    l.take (min n l.length) = l.take n := by
  rcases le_total n l.length with h | h
  · rw [Nat.min_eq_left h]
  · rw [Nat.min_eq_right h, List.take_of_length_le (le_refl _),
      List.take_of_length_le h]

/-! ## Unfolding the classifier -/

theorem classifyLink_set {st : List (List Char) × List (List Char)}
    {link : List Char} {pn : Nat × Nat}
    (h : reSearch set_id_pattern link = some pn) :
    classifyLink st link = (addUnique st.1 (matchSub link pn), st.2) := by
  unfold classifyLink
  rw [h]

theorem classifyLink_map {st : List (List Char) × List (List Char)}
    {link : List Char} {pn : Nat × Nat}
    (hs : reSearch set_id_pattern link = none)
    (hm : reSearch map_id_pattern link = some pn) :
    classifyLink st link = (st.1, addUnique st.2 (matchSub link pn)) := by
  unfold classifyLink
  rw [hs, hm]

/-! ## C4 -/

/-- C4 amended: with the patterns compiled without `re.MULTILINE`, a bare
digit run yields an item reference only at the very start of the input
file.  For a file of newline-separated bare digit runs, the run at the
start of the file yields exactly one ItemReference carrying its first
`min 8` digits (so a run longer than 8 digits is truncated, not rejected),
and every later run yields no reference at all. -/
theorem c4_amended (r : List Char) (rs : List (List Char))
    (hr1 : 1 ≤ r.length) (hrd : ∀ c ∈ r, isDigitChar c = true)
    (hrs : ∀ x ∈ rs, ∀ c ∈ x, isDigitChar c = true) :
    parse_ids_from_plaintext_file (r ++ (rs.flatMap fun x => '\n' :: x))
      = ([], [r.take 8]) := by
  set T : List Char := rs.flatMap fun x => '\n' :: x with hT
  have hTmem : ∀ c ∈ T, isDigitChar c = true ∨ c = '\n' := by
    intro c hc
    rw [hT, List.mem_flatMap] at hc
    obtain ⟨x, hx, hcx⟩ := hc
    rcases List.mem_cons.mp hcx with h | h
    · exact Or.inr h
    · exact Or.inl (hrs x hx c h)
  have hThead : T = [] ∨ ∃ c t, T = c :: t ∧ isDigitChar c = false := by
    rw [hT]
    cases rs with
    | nil => exact Or.inl rfl
    | cons x xs => exact Or.inr ⟨'\n', _, rfl, by decide⟩
  have hlead : leadingCount isDigitChar (r ++ T) = r.length :=
    leadingCount_append_stop _ r T hrd hThead
  set m : Nat := min 8 r.length with hmdef
  have hm1 : 1 ≤ m := by rw [hmdef]; omega
  have hmr : m ≤ r.length := by rw [hmdef]; omega
  cases hr : r with
  | nil => rw [hr] at hr1; simp at hr1
  | cons c t =>
  rw [← hr]
  -- the single match of the broad scan
  have hosu : ∃ l, osu_link_pattern [] (r ++ T) = m :: l := by
    rw [hr, List.cons_append]
    have := osu_link_start_digits c (t ++ T) (hrd c (by rw [hr]; simp))
    rw [show leadingCount isDigitChar (c :: (t ++ T)) = r.length from by
      rw [← List.cons_append, ← hr]; exact hlead] at this
    exact this
  obtain ⟨l, hl⟩ := hosu
  have hfind : finditer osu_link_pattern (r ++ T) = [(r ++ T).take m] := by
    rw [show m = (m - 1) + 1 from by omega] at hl
    unfold finditer
    rw [hr, List.cons_append] at hl ⊢
    rw [finditerAux_hit hl, ← List.cons_append, ← hr]
    rw [show (m - 1) + 1 = m from by omega]
    refine congrArg _ ?_
    refine osu_scan_tail _ _ ?_ ?_
    · cases hm : m with
      | zero => omega
      | succ k =>
        rw [hr, List.cons_append, List.take_succ_cons]
        simp
    · intro x hx
      rw [List.drop_append_of_le_length hmr] at hx
      rcases List.mem_append.mp hx with h | h
      · exact Or.inl (hrd x (List.drop_subset m r h))
      · exact hTmem x h
  have htok : (r ++ T).take m = r.take 8 := by
    rw [List.take_append_of_le_length hmr, hmdef, take_min_length]
  -- classification of the token
  have htokd : ∀ c ∈ r.take 8, isDigitChar c = true :=
    fun c hc => hrd c (List.take_subset 8 r hc)
  have htoklen : (r.take 8).length = m := by
    rw [List.length_take, hmdef]
  have hset : reSearch set_id_pattern (r.take 8) = none := by
    unfold reSearch
    have := set_scan_digits (r.take 8) htokd [] [] (by rfl)
    rw [List.append_nil] at this
    rw [this]
    refine reSearchAux_none (set_id_fail ?_)
    refine prevSS_reverse_digits _ htokd ?_ []
    intro heq
    have := congrArg List.length heq
    rw [htoklen] at this
    simp at this
    omega
  have hmap : reSearch map_id_pattern (r.take 8) = some (0, m) := by
    unfold reSearch
    cases htk : r.take 8 with
    | nil =>
      exfalso
      have := congrArg List.length htk
      rw [htoklen] at this
      simp at this
      omega
    | cons c1 t1 =>
      obtain ⟨l1, hl1⟩ := map_id_match_start c1 t1 (htokd c1 (by rw [htk]; simp))
      rw [show min 8 (leadingCount isDigitChar (c1 :: t1)) = m from by
        rw [← htk, leadingCount_all _ _ htokd, htoklen, hmdef]
        omega] at hl1
      rw [reSearchAux_hit hl1]
      rfl
  have hsub : matchSub (r.take 8) (0, m) = r.take 8 := by
    unfold matchSub
    simp only [List.drop_zero]
    rw [← htoklen, List.take_length]
  show (finditer osu_link_pattern (r ++ T)).foldl classifyLink ([], []) = _
  rw [hfind, htok, List.foldl_cons, List.foldl_nil, classifyLink_map hset hmap, hsub]
  rfl

/-- C4 is refuted on the file `1\n2`: the claim requires the bare digit run
`2` on the second line to yield an item reference, but only the run at the
very start of the file is matched (there is no `re.MULTILINE`), so parsing
yields exactly one item id, `1`. -/
theorem c4_counterexample :
    parse_ids_from_plaintext_file ['1', '\n', '2'] = ([], [['1']])
      ∧ ¬ ['2'] ∈ [['1']] := by
  constructor
  · have := c4_amended ['1'] [['2']] (by decide) (by decide) (by decide)
    simpa using this
  · decide

/-- Witness for C4's amended claim on the file `1234\n567`. -/
theorem c4_amended_witness :
    parse_ids_from_plaintext_file
        (['1', '2', '3', '4'] ++ ([['5', '6', '7']].flatMap fun x => '\n' :: x))
      = ([], [['1', '2', '3', '4'].take 8]) :=
  c4_amended ['1', '2', '3', '4'] [['5', '6', '7']] (by decide) (by decide) (by decide)

/-! ## C6 -/

theorem osu_link_fail_nil_any {prev : List Char} (h : prev ≠ []) :
    osu_link_pattern prev [] = [] := by
  cases prev with
  | nil => exact absurd rfl h
  | cons p0 pr => exact osu_link_fail_nil p0 pr

/-- When the broad scan's preferred match at position 0 covers the whole
input, `finditer` returns exactly that one token. -/
theorem finditer_whole (c : Char) (t : List Char)
    (hhit : (osu_link_pattern [] (c :: t)).head? = some (c :: t).length) :
    finditer osu_link_pattern (c :: t) = [c :: t] := by
  unfold finditer
  have hl : ∃ l, osu_link_pattern [] (c :: t) = (t.length + 1) :: l := by
    cases hv : osu_link_pattern [] (c :: t) with
    | nil => rw [hv] at hhit; cases hhit
    | cons x l =>
      rw [hv] at hhit
      simp at hhit
      exact ⟨l, by rw [hhit]⟩
  obtain ⟨l, hl⟩ := hl
  rw [finditerAux_hit hl]
  have htake : (c :: t).take (t.length + 1) = c :: t :=
    List.take_of_length_le (by simp)
  have hdrop : (c :: t).drop (t.length + 1) = [] := by
    rw [List.drop_eq_nil_iff]
    simp
  rw [htake, hdrop, finditerAux_nil (osu_link_fail_nil_any (by simp))]

/-- C6 amended: a valid set-container token (long form, no fragment) whose
embedded ID has 1–7 digits yields exactly one SetReference carrying the
full ID; with an 8-digit embedded ID the SetReference carries only the
first 7 digits — a truncation, because `set_id_pattern` bounds the run to
`\d{1,7}`. -/
theorem c6_amended (a : List Char) (ha : ∀ c ∈ a, isDigitChar c = true)
    (h1 : 1 ≤ a.length) (h8 : a.length ≤ 8) :
    parse_ids_from_plaintext_file ("https://osu.ppy.sh/beatmapsets/".toList ++ a)
      = ([a.take 7], [])
    ∧ (a.length ≤ 7 → a.take 7 = a) := by
  refine ⟨?_, fun h => List.take_of_length_le h⟩
  cases hra : a with
  | nil => rw [hra] at h1; simp at h1
  | cons c0 t0 =>
  rw [← hra]
  have hinner : ∀ pr : List Char, ∃ vs, osu_link_inner pr a = a.length :: vs := by
    intro pr
    rw [hra]
    exact osu_link_inner_digits_eof pr c0 t0 (by rw [← hra]; exact ha) (by rw [← hra]; exact h8)
  obtain ⟨l, hl⟩ := osu_link_head_on_prefix a a.length hinner
  have hexp : "https://osu.ppy.sh/beatmapsets/".toList ++ a
      = 'h' :: ("ttps://osu.ppy.sh/beatmapsets/".toList ++ a) := rfl
  have hfind : finditer osu_link_pattern ("https://osu.ppy.sh/beatmapsets/".toList ++ a)
      = ["https://osu.ppy.sh/beatmapsets/".toList ++ a] := by
    rw [hexp]
    refine finditer_whole 'h' _ ?_
    rw [← hexp, hl]
    refine congrArg some ?_
    simp
    omega
  have hset : reSearch set_id_pattern ("https://osu.ppy.sh/beatmapsets/".toList ++ a)
      = some (31, min 7 a.length) := by
    unfold reSearch
    rw [set_scan_noSS "https://osu.ppy.sh/beatmapsets/".toList [] a (by decide)]
    obtain ⟨l2, hl2⟩ :=
      @set_id_match_ets_eof ("https://osu.ppy.sh/beatmapsets/".toList.reverse ++ []) a
        (by decide) (by decide) ha h1
    rw [reSearchAux_hit hl2]
    rfl
  have hsub : matchSub ("https://osu.ppy.sh/beatmapsets/".toList ++ a)
      (31, min 7 a.length) = a.take 7 := by
    unfold matchSub
    show (("https://osu.ppy.sh/beatmapsets/".toList ++ a).drop 31).take (min 7 a.length)
      = a.take 7
    rw [show (31 : Nat) = ("https://osu.ppy.sh/beatmapsets/".toList).length from rfl,
      List.drop_left, take_min_length]
  show (finditer osu_link_pattern _).foldl classifyLink ([], []) = _
  rw [hfind, List.foldl_cons, List.foldl_nil, classifyLink_set hset, hsub]
  rfl

/-- C6 is refuted on an 8-digit set ID: the source's `set_id_pattern` caps
the digit run at 7 (`\d{1,7}`), so `osu.ppy.sh/s/12345678` yields a
SetReference carrying `1234567`, a truncation, not the full embedded ID. -/
theorem c6_counterexample :
    parse_ids_from_plaintext_file "osu.ppy.sh/s/12345678".toList
      = ([['1', '2', '3', '4', '5', '6', '7']], [])
    ∧ ¬ ['1', '2', '3', '4', '5', '6', '7', '8']
        ∈ [['1', '2', '3', '4', '5', '6', '7']] := by
  constructor
  · have hfind : finditer osu_link_pattern "osu.ppy.sh/s/12345678".toList
        = ["osu.ppy.sh/s/12345678".toList] := finditer_whole 'o' _ (by decide)
    show (finditer osu_link_pattern _).foldl classifyLink ([], []) = _
    rw [hfind]
    decide
  · decide

/-- Witness for C6's amended claim: a 7-digit ID is carried in full, and
(from the same theorem at an 8-digit ID) an 8-digit ID is truncated. -/
theorem c6_amended_witness :
    (parse_ids_from_plaintext_file
        ("https://osu.ppy.sh/beatmapsets/".toList ++ ['1', '2', '3', '4', '5', '6', '7'])
      = ([['1', '2', '3', '4', '5', '6', '7'].take 7], [])
    ∧ (['1', '2', '3', '4', '5', '6', '7'].length ≤ 7 →
        ['1', '2', '3', '4', '5', '6', '7'].take 7 = ['1', '2', '3', '4', '5', '6', '7'])) :=
  c6_amended ['1', '2', '3', '4', '5', '6', '7'] (by decide) (by decide) (by decide)

/-! ## C5 -/

theorem map_id_fail_ws_ne {prev rest : List Char} (hne : prev ≠ [])
    (hws : prevWS prev = false) : map_id_pattern prev rest = [] := by
  cases prev with
  | nil => exact absurd rfl hne
  | cons c pr => exact map_id_fail_ws hws

/-- C5 amended: a set-container token whose embedded ID (1–7 digits) is
immediately followed by a fragment `#osu/<digits>` is indeed not treated
as a set reference (the `(?!(?<=ets/)\d{1,7}(#|%23))` lookahead rejects
it), but it is not Rejected either: `map_id_pattern`'s `(?<=\w/)` branch
extracts the digits after the fragment's slash, so classification yields
exactly one ItemReference carrying the fragment digits. -/
theorem c5_amended (a b : List Char)
    (ha : ∀ c ∈ a, isDigitChar c = true) (h1a : 1 ≤ a.length) (h7a : a.length ≤ 7)
    (hb : ∀ c ∈ b, isDigitChar c = true) (h1b : 1 ≤ b.length) (h8b : b.length ≤ 8) :
    parse_ids_from_plaintext_file
        ("https://osu.ppy.sh/beatmapsets/".toList ++ a
          ++ ('#' :: 'o' :: 's' :: 'u' :: '/' :: b))
      = ([], [b]) := by
  obtain ⟨ca, ta, hra⟩ : ∃ ca ta, a = ca :: ta := by
    cases a with
    | nil => simp at h1a
    | cons x t => exact ⟨x, t, rfl⟩
  obtain ⟨cb, tb, hrb⟩ : ∃ cb tb, b = cb :: tb := by
    cases b with
    | nil => simp at h1b
    | cons x t => exact ⟨x, t, rfl⟩
  have hane : a ≠ [] := by rw [hra]; simp
  have hbne : b ≠ [] := by rw [hrb]; simp
  have hdta : ∀ x ∈ ta, isDigitChar x = true := by
    intro x hx
    exact ha x (by rw [hra]; simp [hx])
  have hca : isDigitChar ca = true := ha ca (by rw [hra]; simp)
  have hcb : isDigitChar cb = true := hb cb (by rw [hrb]; simp)
  rw [List.append_assoc]
  have hPR : "https://osu.ppy.sh/beatmapsets/".toList.reverse ++ ([] : List Char)
      = '/' :: "stespamtaeb/hs.ypp.uso//:sptth".toList := by decide
  have hset : reSearch set_id_pattern
      ("https://osu.ppy.sh/beatmapsets/".toList
        ++ (a ++ ('#' :: 'o' :: 's' :: 'u' :: '/' :: b))) = none := by
    unfold reSearch
    rw [set_scan_noSS "https://osu.ppy.sh/beatmapsets/".toList []
        (a ++ ('#' :: 'o' :: 's' :: 'u' :: '/' :: b)) (by decide), hPR]
    have hfail0 : set_id_pattern ('/' :: "stespamtaeb/hs.ypp.uso//:sptth".toList)
        (a ++ ('#' :: 'o' :: 's' :: 'u' :: '/' :: b)) = [] :=
      set_id_fail_ets_frag a ('#' :: 'o' :: 's' :: 'u' :: '/' :: b) (by decide)
        ha h1a h7a ⟨'o' :: 's' :: 'u' :: '/' :: b, rfl⟩
    rw [hra, List.cons_append] at hfail0
    rw [hra, List.cons_append, reSearchAux_step hfail0]
    rw [set_scan_digits ta hdta (ca :: ('/' :: "stespamtaeb/hs.ypp.uso//:sptth".toList))
      ('#' :: 'o' :: 's' :: 'u' :: '/' :: b) (prevSS_digit hca _)]
    rw [show ta.reverse ++ (ca :: ('/' :: "stespamtaeb/hs.ypp.uso//:sptth".toList))
        = a.reverse ++ ('/' :: "stespamtaeb/hs.ypp.uso//:sptth".toList) from by
      rw [hra]; simp]
    rw [reSearchAux_step (set_id_fail (prevSS_reverse_digits a ha hane _))]
    rw [reSearchAux_step (set_id_fail (prevSS_cons_ne (show ¬ '#' = '/' from by decide) _))]
    rw [reSearchAux_step (set_id_fail (prevSS_cons_ne (show ¬ 'o' = '/' from by decide) _))]
    rw [reSearchAux_step (set_id_fail (prevSS_cons_ne (show ¬ 's' = '/' from by decide) _))]
    rw [reSearchAux_step (set_id_fail (prevSS_cons_ne (show ¬ 'u' = '/' from by decide) _))]
    rw [show b = b ++ ([] : List Char) from (List.append_nil b).symm]
    rw [set_scan_digits b hb
      ('/' :: 'u' :: 's' :: 'o' :: '#' ::
        (a.reverse ++ ('/' :: "stespamtaeb/hs.ypp.uso//:sptth".toList))) [] (by rfl)]
    rw [reSearchAux_none (set_id_fail (prevSS_reverse_digits b hb hbne _))]
  have hmap : reSearch map_id_pattern
      ("https://osu.ppy.sh/beatmapsets/".toList
        ++ (a ++ ('#' :: 'o' :: 's' :: 'u' :: '/' :: b)))
      = some (36 + a.length, b.length) := by
    unfold reSearch
    rw [map_scan_cond "https://osu.ppy.sh/beatmapsets/".toList []
        (a ++ ('#' :: 'o' :: 's' :: 'u' :: '/' :: b)) (by decide), hPR]
    have hmf0 : map_id_pattern ('/' :: "stespamtaeb/hs.ypp.uso//:sptth".toList)
        (ca :: (ta ++ ('#' :: 'o' :: 's' :: 'u' :: '/' :: b))) = [] :=
      map_id_fail_ets (by decide)
    rw [hra, List.cons_append, reSearchAux_step hmf0]
    rw [map_scan_digits ta hdta ca ('/' :: "stespamtaeb/hs.ypp.uso//:sptth".toList)
      ('#' :: 'o' :: 's' :: 'u' :: '/' :: b) (prevWS_digit hca _)]
    rw [show ta.reverse ++ (ca :: ('/' :: "stespamtaeb/hs.ypp.uso//:sptth".toList))
        = a.reverse ++ ('/' :: "stespamtaeb/hs.ypp.uso//:sptth".toList) from by
      rw [hra]; simp]
    rw [reSearchAux_step (map_id_fail_ws_ne (by simp)
      (prevWS_reverse_digits a ha hane _))]
    rw [reSearchAux_step (map_id_fail_ws (prevWS_cons_ne (show ¬ '#' = '/' from by decide) _))]
    rw [reSearchAux_step (map_id_fail_ws (prevWS_cons_ne (show ¬ 'o' = '/' from by decide) _))]
    rw [reSearchAux_step (map_id_fail_ws (prevWS_cons_ne (show ¬ 's' = '/' from by decide) _))]
    rw [reSearchAux_step (map_id_fail_ws (prevWS_cons_ne (show ¬ 'u' = '/' from by decide) _))]
    rw [hrb]
    obtain ⟨lm, hlm⟩ := @map_id_match
      ('/' :: 'u' :: 's' :: 'o' :: '#' ::
        (a.reverse ++ ('/' :: "stespamtaeb/hs.ypp.uso//:sptth".toList)))
      cb tb (by rfl)
      (by intro hcon
          rw [show ('/' :: 'u' :: 's' :: 'o' :: '#' ::
              (a.reverse ++ ('/' :: "stespamtaeb/hs.ypp.uso//:sptth".toList))).take 4
              = ['/', 'u', 's', 'o'] from rfl] at hcon
          exact absurd hcon (by decide))
      (by intro hcon
          rw [show ('/' :: 'u' :: 's' :: 'o' :: '#' ::
              (a.reverse ++ ('/' :: "stespamtaeb/hs.ypp.uso//:sptth".toList))).take 3
              = ['/', 'u', 's'] from rfl] at hcon
          exact absurd hcon (by decide))
      hcb
    rw [reSearchAux_hit hlm]
    refine congrArg some ?_
    rw [Prod.mk.injEq]
    refine ⟨?_, ?_⟩
    · have hr30 : ("stespamtaeb/hs.ypp.uso//:sptth".toList).length = 30 := by decide
      have hal : a.length = ta.length + 1 := by rw [hra]; simp
      simp only [List.length_cons, List.length_append, List.length_reverse, hr30]
      omega
    · have hlc : leadingCount isDigitChar (cb :: tb) = tb.length + 1 := by
        have hall : ∀ x ∈ (cb :: tb), isDigitChar x = true := by
          intro x hx
          exact hb x (by rw [hrb]; exact hx)
        have := leadingCount_all isDigitChar (cb :: tb) hall
        simpa using this
      rw [hlc]
      have h8 : tb.length + 1 ≤ 8 := by
        have := h8b
        rw [hrb] at this
        simpa using this
      simp only [List.length_cons]
      omega
  have hinner : ∀ pr : List Char, ∃ vs,
      osu_link_inner pr (a ++ ('#' :: 'o' :: 's' :: 'u' :: '/' :: b))
        = (a.length + 5 + b.length) :: vs := by
    intro pr
    exact osu_link_inner_frag pr a b ha h1a (by omega) hb h1b h8b
  obtain ⟨lf, hlf⟩ := osu_link_head_on_prefix
    (a ++ ('#' :: 'o' :: 's' :: 'u' :: '/' :: b)) (a.length + 5 + b.length) hinner
  have hexp : "https://osu.ppy.sh/beatmapsets/".toList
        ++ (a ++ ('#' :: 'o' :: 's' :: 'u' :: '/' :: b))
      = 'h' :: ("ttps://osu.ppy.sh/beatmapsets/".toList
        ++ (a ++ ('#' :: 'o' :: 's' :: 'u' :: '/' :: b))) := rfl
  have hfind : finditer osu_link_pattern
      ("https://osu.ppy.sh/beatmapsets/".toList
        ++ (a ++ ('#' :: 'o' :: 's' :: 'u' :: '/' :: b)))
      = ["https://osu.ppy.sh/beatmapsets/".toList
          ++ (a ++ ('#' :: 'o' :: 's' :: 'u' :: '/' :: b))] := by
    rw [hexp]
    refine finditer_whole 'h' _ ?_
    rw [← hexp, hlf]
    refine congrArg some ?_
    simp
    omega
  have hsub : matchSub ("https://osu.ppy.sh/beatmapsets/".toList
        ++ (a ++ ('#' :: 'o' :: 's' :: 'u' :: '/' :: b)))
      (36 + a.length, b.length) = b := by
    unfold matchSub
    show (("https://osu.ppy.sh/beatmapsets/".toList
        ++ (a ++ ('#' :: 'o' :: 's' :: 'u' :: '/' :: b))).drop
          (36 + a.length)).take b.length = b
    have hre : "https://osu.ppy.sh/beatmapsets/".toList
          ++ (a ++ ('#' :: 'o' :: 's' :: 'u' :: '/' :: b))
        = ("https://osu.ppy.sh/beatmapsets/".toList ++ a
            ++ (['#', 'o', 's', 'u', '/'] : List Char)) ++ b := by
      rw [List.append_assoc, List.append_assoc]
      rfl
    have hlen : ("https://osu.ppy.sh/beatmapsets/".toList ++ a
        ++ (['#', 'o', 's', 'u', '/'] : List Char)).length = 36 + a.length := by
      simp only [List.length_append]
      rw [show ("https://osu.ppy.sh/beatmapsets/".toList).length = 31 from rfl,
        show ((['#', 'o', 's', 'u', '/'] : List Char)).length = 5 from rfl]
      omega
    rw [hre, show (36 + a.length : Nat) = ("https://osu.ppy.sh/beatmapsets/".toList ++ a
        ++ (['#', 'o', 's', 'u', '/'] : List Char)).length from hlen.symm,
      List.drop_left, List.take_length]
  show (finditer osu_link_pattern _).foldl classifyLink ([], []) = _
  rw [hfind, List.foldl_cons, List.foldl_nil, classifyLink_map hset hmap, hsub]
  rfl

/-- C5 is refuted on `osu.ppy.sh/beatmapsets/1#osu/2`: the claim demands
the token be Rejected (no SetReference, no ItemReference), but the code
classifies it as an ItemReference carrying the fragment digits `2`. -/
theorem c5_counterexample :
    parse_ids_from_plaintext_file "osu.ppy.sh/beatmapsets/1#osu/2".toList
      = ([], [['2']])
    ∧ ([['2']] : List (List Char)) ≠ [] := by
  constructor
  · have hfind : finditer osu_link_pattern "osu.ppy.sh/beatmapsets/1#osu/2".toList
        = ["osu.ppy.sh/beatmapsets/1#osu/2".toList] := finditer_whole 'o' _ (by decide)
    show (finditer osu_link_pattern _).foldl classifyLink ([], []) = _
    rw [hfind]
    decide
  · decide

/-- Witness for C5's amended claim at the 1-digit set ID `1` and fragment
digits `2`. -/
theorem c5_amended_witness :
    parse_ids_from_plaintext_file
        ("https://osu.ppy.sh/beatmapsets/".toList ++ ['1']
          ++ ('#' :: 'o' :: 's' :: 'u' :: '/' :: ['2']))
      = ([], [['2']]) :=
  c5_amended ['1'] ['2'] (by decide) (by decide) (by decide)
    (by decide) (by decide) (by decide)

end OsuCollectionFactory
